import Mathlib

/-!
Verification of the pbs-backuper change-detection and archive-grouping engine.

Go strings are modelled as `List Char` (one `Char` per byte), so `len`,
slicing and lexicographic comparison translate to list operations.
External effects (filesystem, remote storage, hashing, clock) are supplied
by an explicit environment of oracle functions; every Go function of the
core is translated line by line against that environment.
-/

namespace PbsBackuper

/-- Go strings (byte sequences) are modelled as lists of characters. -/
abbrev GoStr := List Char

/-- Association-list lookup: first binding wins, mirroring Go map lookup
(Go maps have unique keys, so first-wins is exact on well-formed data). -/
def lookupKey {α : Type} : List (GoStr × α) → GoStr → Option α
  | [], _ => none
  | (k, v) :: rest, n => if k = n then some v else lookupKey rest n

/-- Association-list update: replace the first binding of the key, or
append a new binding — the image of a Go map assignment `m[k] = v`. -/
def setKey {α : Type} : List (GoStr × α) → GoStr → α → List (GoStr × α)
  | [], k, v => [(k, v)]
  | (k1, v1) :: rest, k, v =>
    if k1 = k then (k, v) :: rest else (k1, v1) :: setKey rest k v

mutual
/-- models.FileTreeNode (models.go): name, size, mod time, directory flag
and children. The Go `map[string]*FileTreeNode` of children is modelled by
the association list `ChildMap`; timestamps are opaque integers compared
for equality, exactly how `time.Time.Equal` is used by the scanner. -/
inductive FileTreeNode : Type where
  | mk (name : GoStr) (size : Int) (modTime : Int) (isDir : Bool)
       (children : ChildMap) : FileTreeNode
  deriving DecidableEq
/-- Children of a FileTreeNode: the `map[string]*FileTreeNode` field as an
association list. -/
inductive ChildMap : Type where
  | nil : ChildMap
  | cons (key : GoStr) (node : FileTreeNode) (rest : ChildMap) : ChildMap
  deriving DecidableEq
end

namespace FileTreeNode
def size : FileTreeNode → Int | .mk _ s _ _ _ => s
def modTime : FileTreeNode → Int | .mk _ _ m _ _ => m
def isDir : FileTreeNode → Bool | .mk _ _ _ d _ => d
def children : FileTreeNode → ChildMap | .mk _ _ _ _ c => c
end FileTreeNode

namespace ChildMap

/-- Lookup in a child map (`newNode.Children[name]`). -/
def lookup : ChildMap → GoStr → Option FileTreeNode
  | .nil, _ => none
  | .cons k v rest, n => if k = n then some v else lookup rest n

/-- `len(node.Children)`. -/
def length : ChildMap → Nat
  | .nil => 0
  | .cons _ _ rest => length rest + 1

/-- The key/node pairs of a child map as a list. -/
def toList : ChildMap → List (GoStr × FileTreeNode)
  | .nil => []
  | .cons k v rest => (k, v) :: toList rest

/-- The keys of a child map. -/
def keys : ChildMap → List GoStr
  | .nil => []
  | .cons k _ rest => k :: keys rest

end ChildMap

/-- The loop `for name := range newNode.Children { if _, ok :=
oldNode.Children[name]; !ok { return true } }` of `hasTreeChanged`:
some key of `cs2` is missing from `cs1`. -/
def newChildMissing (cs1 : ChildMap) : ChildMap → Bool
  | .nil => false
  | .cons k _ rest => (cs1.lookup k).isNone || newChildMissing cs1 rest

mutual
-- scanner.hasTreeChanged and its child loop, translated as two mutually
-- recursive functions.
/-- scanner.hasTreeChanged (scanner.go): true iff the two nodes differ in
size, modification time or directory flag, or (for directories) in child
count, or some old child is missing from / changed in the new node, or
some new child is missing from the old node. -/
def hasTreeChanged : FileTreeNode → FileTreeNode → Bool
  | .mk _ sz mt d cs, .mk _ sz2 mt2 d2 cs2 =>
    if sz ≠ sz2 || mt ≠ mt2 || d ≠ d2 then true
    else if !d then false
    else if cs.length ≠ cs2.length then true
    else if oldChildrenChanged cs cs2 then true
    else newChildMissing cs cs2

/-- The loop over `oldNode.Children` in `hasTreeChanged`: some old child is
absent from the new map or has itself changed. -/
def oldChildrenChanged : ChildMap → ChildMap → Bool
  | .nil, _ => false
  | .cons n c rest, cs2 =>
    (match cs2.lookup n with
     | none => true
     | some c2 => hasTreeChanged c c2) || oldChildrenChanged rest cs2
end

example : hasTreeChanged (.mk [] 1 2 false .nil) (.mk [] 1 2 false .nil) = false := by decide
example : hasTreeChanged
    (.mk [] 1 2 true (.cons ['a'] (.mk ['a'] 1 2 false .nil) .nil))
    (.mk [] 1 2 true (.cons ['b'] (.mk ['b'] 1 2 false .nil) .nil)) = true := by decide

/-- A file-tree snapshot: the `map[string]*FileTreeNode` returned by
ScanFileTree, keyed by top-level shard directory name. -/
abbrev Snapshot := List (GoStr × FileTreeNode)

/-- scanner.CompareFileTrees (scanner.go): the set of top-level names that
are new in `newT`, changed between the two trees, or deleted from `oldT`,
returned as a list of names (the Go function returns `map[string]bool`
with every stored value `true`; list membership is map membership). -/
def compareFileTrees (oldT newT : Snapshot) : List GoStr :=
  (newT.filter (fun e =>
      match lookupKey oldT e.1 with
      | none => true
      | some oldNode => hasTreeChanged oldNode e.2)).map (fun e => e.1)
    ++ (oldT.filter (fun e => (lookupKey newT e.1).isNone)).map (fun e => e.1)

/-- The regexp `^[0-9a-fA-F]{4}$` used by the scanner: exactly four
case-insensitive hexadecimal characters. -/
def isHex4 (s : GoStr) : Bool :=
  s.length == 4 && s.all (fun c =>
    ('0' ≤ c && c ≤ '9') || ('a' ≤ c && c ≤ 'f') || ('A' ≤ c && c ≤ 'F'))

mutual
/-- An entry of the abstract filesystem under the namespace root: a file
with a size and mod time, or a directory with named entries. -/
inductive FsNode : Type where
  | file (size : Int) (modTime : Int) : FsNode
  | dir (modTime : Int) (entries : FsEntries) : FsNode
/-- A directory listing of the abstract filesystem, in `os.ReadDir` order
(sorted by name; the scanner's behaviour does not depend on the order). -/
inductive FsEntries : Type where
  | nil : FsEntries
  | cons (name : GoStr) (node : FsNode) (rest : FsEntries) : FsEntries
end

/-- Whether a filesystem entry is a directory (`entry.IsDir()`). -/
def FsNode.isDirEntry : FsNode → Bool
  | .file _ _ => false
  | .dir _ _ => true

/-- The root listing as a list of (name, entry) pairs. -/
def FsEntries.toList : FsEntries → List (GoStr × FsNode)
  | .nil => []
  | .cons n e rest => (n, e) :: rest.toList

/-- Sum of the sizes of the nodes of a child map — the value accumulated
by scanDirectory's `node.Size +=` loop. -/
def ChildMap.sizeSum : ChildMap → Int
  | .nil => 0
  | .cons _ n rest => n.size + rest.sizeSum

mutual
/-- scanner.scanDirectory (scanner.go) over the abstract filesystem:
builds the FileTreeNode of one entry; a directory's size is the sum of its
children's sizes, accumulated exactly as the Go loop does. The error-free
projection is used — read failures abort the whole scan in Go and are
irrelevant to the filtering claims proved here. -/
def scanFs (name : GoStr) : FsNode → FileTreeNode
  | .file sz mt => .mk name sz mt false .nil
  | .dir mt entries =>
    let cm := scanFsEntries entries
    .mk name cm.sizeSum mt true cm
/-- The loop of scanDirectory over a directory listing, producing the
child map. -/
def scanFsEntries : FsEntries → ChildMap
  | .nil => .nil
  | .cons n e rest => .cons n (scanFs n e) (scanFsEntries rest)
end

/-- scanner.ScanFileTree (scanner.go): keep only the entries under the
root that are directories and whose name matches `^[0-9a-fA-F]{4}$`, and
scan each of them. -/
def scanFileTree (root : List (GoStr × FsNode)) : Snapshot :=
  (root.filter (fun e => e.2.isDirEntry && isHex4 e.1)).map
    (fun e => (e.1, scanFs e.1 e.2))

/-- scanner.GetChunkDirectories (scanner.go): the names of the directory
entries under the root matching the 4-hex-digit pattern, sorted
lexicographically. -/
def getChunkDirectories (root : List (GoStr × FsNode)) : List GoStr :=
  List.insertionSort (· ≤ ·)
    ((root.filter (fun e => e.2.isDirEntry && isHex4 e.1)).map (fun e => e.1))

/-- models.ArchiveGroup (models.go). The Go field `Prefix` is called `pfx`
here (`prefix` is unavailable as a Lean field name). -/
structure ArchiveGroup : Type where
  pfx : GoStr
  startRange : GoStr
  endRange : GoStr
  archiveName : GoStr
  directories : List GoStr
  needsUpdate : Bool
  deriving DecidableEq

/-- archiver.calculateRange (archiver.go): pad the group prefix with '0'
and with 'f' to length 4. -/
def calculateRange (p : GoStr) (prefixDigits : Nat) : GoStr × GoStr :=
  (p ++ List.replicate (4 - prefixDigits) '0',
   p ++ List.replicate (4 - prefixDigits) 'f')

/-- One step of the bucket loop of GenerateArchiveGroups:
`groupMap[prefix] = append(groupMap[prefix], dir)`, with the Go map
modelled as an association list in first-insertion order. -/
def bucketAdd : List (GoStr × List GoStr) → GoStr → GoStr → List (GoStr × List GoStr)
  | [], p, d => [(p, [d])]
  | (q, ds) :: rest, p, d =>
    if q = p then (q, ds ++ [d]) :: rest else (q, ds) :: bucketAdd rest p d

/-- The bucket loop of GenerateArchiveGroups: group the directory names of
length 4 by their first `prefixDigits` characters; other names are
skipped. -/
def buildBuckets (dirs : List GoStr) (prefixDigits : Nat) : List (GoStr × List GoStr) :=
  dirs.foldl
    (fun bs d => if d.length = 4 then bucketAdd bs (d.take prefixDigits) d else bs) []

/-- archiver.GenerateArchiveGroups (archiver.go): reject `prefixDigits`
outside [1,4]; bucket names by prefix; sort each bucket's members and
derive ranges and the archive name `<start>-<end>.tar.gz`; sort the
resulting groups by prefix. Go sorts with unstable algorithms, but the
member lists (duplicates are identical strings) and the group list
(distinct prefixes) each have a unique sorted permutation, which
`insertionSort` computes. -/
def generateArchiveGroups (dirs : List GoStr) (prefixDigits : Int) :
    Except String (List ArchiveGroup) :=
  if prefixDigits < 1 ∨ prefixDigits > 4 then
    .error "prefix digits must be between 1 and 4"
  else
    let pd := prefixDigits.toNat
    let groups := (buildBuckets dirs pd).map (fun b =>
      let sorted := List.insertionSort (· ≤ ·) b.2
      let ranges := calculateRange b.1 pd
      { pfx := b.1, startRange := ranges.1, endRange := ranges.2,
        archiveName := ranges.1 ++ '-' :: ranges.2 ++ ".tar.gz".toList,
        directories := sorted, needsUpdate := false : ArchiveGroup })
    .ok (List.insertionSort (fun g h => g.pfx ≤ h.pfx) groups)

/-- archiver.MarkGroupsForUpdate (archiver.go): set `NeedsUpdate` on every
group having a member in the changed-directory set. -/
def markGroupsForUpdate (groups : List ArchiveGroup) (changedDirs : List GoStr) :
    List ArchiveGroup :=
  groups.map (fun g =>
    if g.directories.any (fun d => changedDirs.contains d) then
      { g with needsUpdate := true }
    else g)

example :
    (generateArchiveGroups ["0000".toList, "0001".toList, "00ff".toList, "0100".toList,
        "01aa".toList, "abcd".toList, "ffff".toList] 2).map
      (fun gs => gs.map (fun g => (g.pfx, g.directories)))
    = .ok [("00".toList, ["0000".toList, "0001".toList, "00ff".toList]),
           ("01".toList, ["0100".toList, "01aa".toList]),
           ("ab".toList, ["abcd".toList]),
           ("ff".toList, ["ffff".toList])] := rfl

example :
    (generateArchiveGroups ["0000".toList] 2).map (fun gs => gs.map (·.archiveName))
    = .ok ["0000-00ff.tar.gz".toList] := rfl

/-- models.BackupMetadata (models.go): the persisted run state. Times are
opaque integers. -/
structure BackupMetadata : Type where
  version : Int
  prefixDigits : Int
  backupTime : Int
  fileTree : Snapshot
  checksums : List (GoStr × GoStr)

/-- models.BackupResult (models.go). `duration` is an opaque integer. -/
structure BackupResult : Type where
  totalArchives : Nat
  updatedArchives : Nat
  skippedArchives : Nat
  errorArchives : List GoStr
  uploadedFiles : List GoStr
  duration : Int
  details : List (GoStr × String)

/-- The zero-valued result both run functions start from. -/
def emptyResult : BackupResult :=
  { totalArchives := 0, updatedArchives := 0, skippedArchives := 0,
    errorArchives := [], uploadedFiles := [], duration := 0, details := [] }

/-- The relevant fields of models.Config. -/
structure Config : Type where
  chunkPath : GoStr
  remotePath : GoStr
  tempPath : GoStr
  prefixDigits : Int

/-- filepath.Join as used on the forward-slash paths of this program. -/
def pathJoin (a b : GoStr) : GoStr := a ++ '/' :: b

/-- backup.MetadataFileName. -/
def metadataFileName : GoStr := "backup-metadata.json".toList

/-- backup.MetadataVersion. -/
def metadataVersion : Int := 1

/-- Outcome of archiver.CreateArchive for one group, as seen by the
caller: success; failure before the archive file exists (`os.MkdirAll` or
`os.Create` failed); or failure while adding directories to the archive,
after `os.Create` already created the file — CreateArchive returns the
error without removing that partial file. -/
inductive BuildOutcome : Type where
  | ok : BuildOutcome
  | createFail (msg : String) : BuildOutcome
  | buildFail (msg : String) : BuildOutcome

/-- Outcome of archiver.CreateChecksumFile: success; `os.Create` failed
(no file); or `WriteString` failed after the file was created. -/
inductive CsFileOutcome : Type where
  | ok : CsFileOutcome
  | createFail (msg : String) : CsFileOutcome
  | writeFail (msg : String) : CsFileOutcome

/-- The external world of one backup run: the filesystem scan results, the
per-group archiver outcomes, the storage backend and the clock. Each field
is the oracle for one collaborator call made by backup.go. -/
structure Env : Type where
  /-- Result of `bm.scanner.ScanFileTree()`. -/
  scanTree : Except String Snapshot
  /-- Result of `bm.scanner.GetChunkDirectories()`. -/
  chunkDirs : Except String (List GoStr)
  /-- Behaviour of `bm.archiver.CreateArchive(group)`. -/
  build : ArchiveGroup → BuildOutcome
  /-- Result of `bm.archiver.CalculateChecksum` on the archive just built
  for the group (the content hash of the artifact). -/
  checksumOf : ArchiveGroup → Except String GoStr
  /-- Behaviour of `bm.archiver.CreateChecksumFile` for the group. -/
  csFile : ArchiveGroup → CsFileOutcome
  /-- `bm.storage.FileExists`. -/
  fileExists : GoStr → Except String Bool
  /-- `bm.storage.GetFileContent`. -/
  getFileContent : GoStr → Except String GoStr
  /-- `bm.storage.UploadFile localPath remotePath`. -/
  upload : GoStr → GoStr → Except String Unit
  /-- `json.Unmarshal` of downloaded metadata bytes. -/
  parseMetadata : GoStr → Except String BackupMetadata
  /-- `os.WriteFile` of the serialized metadata to the temp path. -/
  writeLocalMetadata : BackupMetadata → Except String Unit
  /-- `time.Now()` at the start of the run. -/
  now : Int
  /-- `time.Since(startTime)` at the end of the run. -/
  elapsed : Int

/-- strings.Fields: the maximal runs of non-whitespace characters. -/
def fieldsOf (s : GoStr) : List GoStr :=
  (List.splitOnP (fun c => c.isWhitespace) s).filter (fun w => w ≠ [])

/-- backup.getRemoteChecksum (backup.go): fetch the remote checksum file
and return its first whitespace-separated field. -/
def getRemoteChecksum (env : Env) (remotePath : GoStr) : Except String GoStr :=
  match env.getFileContent remotePath with
  | .error e => .error e
  | .ok content =>
    match fieldsOf content with
    | p :: _ => .ok p
    | [] => .error "invalid checksum file format"

/-- The mutable state threaded through group processing: the run's
checksum map and result, plus the set of scratch files currently present
in the temp directory (for the cleanup claims). -/
structure PState : Type where
  checksums : List (GoStr × GoStr)
  result : BackupResult
  tmp : List GoStr

/-- Record a scratch file as present (`os.Create` truncates, so creating
an already-present path leaves one file). -/
def addFile (tmp : List GoStr) (p : GoStr) : List GoStr :=
  if p ∈ tmp then tmp else tmp ++ [p]

/-- `os.Remove`. -/
def removeFile (tmp : List GoStr) (p : GoStr) : List GoStr :=
  tmp.filter (fun q => q ≠ p)

/-- archiver.CreateArchive (archiver.go) at the level seen by backup.go:
on success the scratch file `tempPath/<archiveName>` exists and its path
is returned; on a create failure nothing exists; on a build failure the
partial scratch file exists and only an error is returned. -/
def createArchive (cfg : Config) (env : Env) (g : ArchiveGroup) (tmp : List GoStr) :
    Except String GoStr × List GoStr :=
  let archivePath := pathJoin cfg.tempPath g.archiveName
  match env.build g with
  | .createFail e => (.error e, tmp)
  | .buildFail e => (.error e, addFile tmp archivePath)
  | .ok => (.ok archivePath, addFile tmp archivePath)

/-- archiver.CreateChecksumFile (archiver.go) at the level seen by
backup.go: the checksum record is written to `<archivePath>.sha256`; a
write failure leaves the created file behind. -/
def createChecksumFile (env : Env) (g : ArchiveGroup) (archivePath : GoStr)
    (tmp : List GoStr) : Except String GoStr × List GoStr :=
  let checksumPath := archivePath ++ ".sha256".toList
  match env.csFile g with
  | .createFail e => (.error e, tmp)
  | .writeFail e => (.error e, addFile tmp checksumPath)
  | .ok => (.ok checksumPath, addFile tmp checksumPath)

/-- backup.processArchiveGroup (backup.go), translated line by line; the
`defer os.Remove` calls are applied on every exit path situated after the
corresponding `defer` statement. Returns the error (`none` on success)
and the updated state. -/
def processArchiveGroup (cfg : Config) (env : Env) (g : ArchiveGroup) (st : PState) :
    Option String × PState :=
  match createArchive cfg env g st.tmp with
  | (.error e, tmp1) => (some ("failed to create archive: " ++ e), { st with tmp := tmp1 })
  | (.ok archivePath, tmp1) =>
    match env.checksumOf g with
    | .error e =>
      (some ("failed to calculate checksum: " ++ e),
       { st with tmp := removeFile tmp1 archivePath })
    | .ok checksum =>
      let remoteSha256Path := pathJoin cfg.remotePath (g.archiveName ++ ".sha256".toList)
      let step3 :=
        match getRemoteChecksum env remoteSha256Path with
        | .ok remoteChecksum =>
          if remoteChecksum = checksum then
            (false, setKey st.result.details g.archiveName "checksum unchanged, skipped upload")
          else (true, st.result.details)
        | .error _ => (true, st.result.details)
      if step3.1 then
        match env.upload archivePath (pathJoin cfg.remotePath g.archiveName) with
        | .error e =>
          (some ("failed to upload archive: " ++ e),
           { st with result := { st.result with details := step3.2 },
                     tmp := removeFile tmp1 archivePath })
        | .ok _ =>
          let uploaded1 := st.result.uploadedFiles ++ [g.archiveName]
          match createChecksumFile env g archivePath tmp1 with
          | (.error e, tmp2) =>
            (some ("failed to create checksum file: " ++ e),
             { st with
                 result := { st.result with uploadedFiles := uploaded1, details := step3.2 },
                 tmp := removeFile tmp2 archivePath })
          | (.ok checksumPath, tmp2) =>
            match env.upload checksumPath remoteSha256Path with
            | .error e =>
              (some ("failed to upload checksum file: " ++ e),
               { st with
                   result := { st.result with uploadedFiles := uploaded1, details := step3.2 },
                   tmp := removeFile (removeFile tmp2 checksumPath) archivePath })
            | .ok _ =>
              (none,
               { checksums := setKey st.checksums g.archiveName checksum,
                 result := { st.result with
                   uploadedFiles := uploaded1 ++ [g.archiveName ++ ".sha256".toList],
                   updatedArchives := st.result.updatedArchives + 1,
                   details := setKey step3.2 g.archiveName "created and uploaded" },
                 tmp := removeFile (removeFile tmp2 checksumPath) archivePath })
      else
        (none,
         { checksums := setKey st.checksums g.archiveName checksum,
           result := { st.result with
             skippedArchives := st.result.skippedArchives + 1,
             details := setKey step3.2 g.archiveName "checksum unchanged, skipped" },
           tmp := removeFile tmp1 archivePath })

/-- The loop body of RunFullBackup's step 4: process the group; on error,
append the group to the error list and record the error text. -/
def fullStep (cfg : Config) (env : Env) (st : PState) (g : ArchiveGroup) : PState :=
  match processArchiveGroup cfg env g st with
  | (none, st1) => st1
  | (some e, st1) =>
    { st1 with result := { st1.result with
        errorArchives := st1.result.errorArchives ++ [g.archiveName],
        details := setKey st1.result.details g.archiveName e } }

/-- The loop body of RunIncrementalBackup's step 7: groups not marked for
update are counted as skipped; marked groups are processed like in a full
run. -/
def incrStep (cfg : Config) (env : Env) (st : PState) (g : ArchiveGroup) : PState :=
  if g.needsUpdate then fullStep cfg env st g
  else
    { st with result := { st.result with
        skippedArchives := st.result.skippedArchives + 1,
        details := setKey st.result.details g.archiveName "unchanged, skipped" } }

/-- backup.loadRemoteMetadata (backup.go): existence check, download,
parse. There is no inspection of the parsed document (in particular none
of its `version` field). -/
def loadRemoteMetadata (cfg : Config) (env : Env) : Except String BackupMetadata :=
  let remotePath := pathJoin cfg.remotePath metadataFileName
  match env.fileExists remotePath with
  | .error e => .error ("failed to check metadata file existence: " ++ e)
  | .ok false => .error "no previous backup metadata found, use full backup mode"
  | .ok true =>
    match env.getFileContent remotePath with
    | .error e => .error ("failed to download metadata: " ++ e)
    | .ok content =>
      match env.parseMetadata content with
      | .error e => .error ("failed to parse metadata: " ++ e)
      | .ok metadata => .ok metadata

/-- backup.saveAndUploadMetadata (backup.go): write the document to the
temp path, then upload it (the local copy is kept deliberately). -/
def saveAndUploadMetadata (cfg : Config) (env : Env) (metadata : BackupMetadata) :
    Except String Unit :=
  match env.writeLocalMetadata metadata with
  | .error e => .error ("failed to save local metadata: " ++ e)
  | .ok _ =>
    match env.upload (pathJoin cfg.tempPath metadataFileName)
        (pathJoin cfg.remotePath metadataFileName) with
    | .error e => .error ("failed to upload metadata: " ++ e)
    | .ok _ => .ok ()

/-- What a successful run hands back: the Go return value plus, for the
theorems, the metadata document that was persisted and the scratch files
remaining in the temp directory. -/
structure RunOutput : Type where
  result : BackupResult
  metadata : BackupMetadata
  tmp : List GoStr

/-- backup.RunFullBackup (backup.go): scan, list, group, process every
group, then persist metadata. -/
def runFullBackup (cfg : Config) (env : Env) : Except String RunOutput :=
  match env.scanTree with
  | .error e => .error ("failed to scan file tree: " ++ e)
  | .ok fileTree =>
  match env.chunkDirs with
  | .error e => .error ("failed to get chunk directories: " ++ e)
  | .ok directories =>
  match generateArchiveGroups directories cfg.prefixDigits with
  | .error e => .error ("failed to generate archive groups: " ++ e)
  | .ok groups =>
  let st := groups.foldl (fullStep cfg env)
    { checksums := [], result := emptyResult, tmp := [] }
  let metadata : BackupMetadata :=
    { version := metadataVersion, prefixDigits := cfg.prefixDigits,
      backupTime := env.now, fileTree := fileTree, checksums := st.checksums }
  match saveAndUploadMetadata cfg env metadata with
  | .error e => .error ("failed to save metadata: " ++ e)
  | .ok _ =>
    .ok { result := { st.result with totalArchives := groups.length, duration := env.elapsed },
          metadata := metadata, tmp := st.tmp }

/-- backup.RunIncrementalBackup (backup.go): load prior metadata, scan,
diff, group with the prior prefix digits, mark dirty groups, process, then
persist new metadata. The Go code's copy of the old checksum map into a
fresh map is the map itself. -/
def runIncrementalBackup (cfg : Config) (env : Env) : Except String RunOutput :=
  match loadRemoteMetadata cfg env with
  | .error e => .error ("failed to load previous backup metadata: " ++ e)
  | .ok oldMetadata =>
  match env.scanTree with
  | .error e => .error ("failed to scan current file tree: " ++ e)
  | .ok currentFileTree =>
  let changedDirs := compareFileTrees oldMetadata.fileTree currentFileTree
  match env.chunkDirs with
  | .error e => .error ("failed to get chunk directories: " ++ e)
  | .ok directories =>
  match generateArchiveGroups directories oldMetadata.prefixDigits with
  | .error e => .error ("failed to generate archive groups: " ++ e)
  | .ok groups0 =>
  let groups := markGroupsForUpdate groups0 changedDirs
  let st := groups.foldl (incrStep cfg env)
    { checksums := oldMetadata.checksums, result := emptyResult, tmp := [] }
  let metadata : BackupMetadata :=
    { version := metadataVersion, prefixDigits := oldMetadata.prefixDigits,
      backupTime := env.now, fileTree := currentFileTree, checksums := st.checksums }
  match saveAndUploadMetadata cfg env metadata with
  | .error e => .error ("failed to save metadata: " ++ e)
  | .ok _ =>
    .ok { result := { st.result with totalArchives := groups.length, duration := env.elapsed },
          metadata := metadata, tmp := st.tmp }

/-! Well-formedness: Go maps have unique keys, so the association lists
standing for them are only the image of real program states when their
keys are distinct, recursively. -/

/-- Keys of a child map are pairwise distinct. -/
def keysNodup : ChildMap → Bool
  | .nil => true
  | .cons k _ rest => !(ChildMap.lookup rest k).isSome && keysNodup rest

mutual
/-- A tree node is the image of a Go FileTreeNode: child keys distinct at
every level. -/
def nodeWf : FileTreeNode → Bool
  | .mk _ _ _ _ cs => keysNodup cs && childrenWf cs
/-- All nodes of a child map are well formed. -/
def childrenWf : ChildMap → Bool
  | .nil => true
  | .cons _ n rest => nodeWf n && childrenWf rest
end

/-- A snapshot is the image of a Go `map[string]*FileTreeNode`: top-level
keys distinct and every node well formed. -/
def snapWf (t : Snapshot) : Prop :=
  (t.map Prod.fst).Nodup ∧ ∀ e ∈ t, nodeWf e.2 = true

mutual
/-- Size measure for induction over trees. -/
def nodeSize : FileTreeNode → Nat
  | .mk _ _ _ _ cs => childSize cs + 1
/-- Size measure for induction over child maps. -/
def childSize : ChildMap → Nat
  | .nil => 0
  | .cons _ n rest => nodeSize n + childSize rest + 1
end

/-! The Snapshot Differ specification, rendered from the spec's words:
"Structural equality of two TreeNodes requires equal size, equal
modifiedAt, equal isDirectory, and — for directories — equal child-name
sets with every child pairwise structurally equal (recursive,
order-independent)." These definitions follow that sentence, to be
compared against `hasTreeChanged`, which follows the code. -/

/-- Every key of the first child map occurs in the second. -/
def keySubset (cs1 cs2 : ChildMap) : Bool :=
  cs1.keys.all (fun k => (cs2.lookup k).isSome)

mutual
/-- Structural equality of tree nodes as worded by the spec: equal size,
modification time and directory flag, and, for directories, equal
child-name sets with every common child pairwise structurally equal. -/
def specStructEq : FileTreeNode → FileTreeNode → Bool
  | .mk _ sz mt d cs, .mk _ sz2 mt2 d2 cs2 =>
    sz == sz2 && mt == mt2 && d == d2 &&
    (!d || (keySubset cs cs2 && keySubset cs2 cs && specCommonEq cs cs2))
/-- Every child of the first map that also exists (by name) in the second
is pairwise structurally equal to it. -/
def specCommonEq : ChildMap → ChildMap → Bool
  | .nil, _ => true
  | .cons n c rest, cs2 =>
    (match cs2.lookup n with
     | none => true
     | some c2 => specStructEq c c2) && specCommonEq rest cs2
end

/-- The spec's "changed" predicate on a shard name: added, removed, or
present in both snapshots with structurally unequal trees. -/
def specChanged (oldT newT : Snapshot) (n : GoStr) : Prop :=
  (lookupKey oldT n = none ∧ (lookupKey newT n).isSome) ∨
  ((lookupKey oldT n).isSome ∧ lookupKey newT n = none) ∨
  (∃ a b, lookupKey oldT n = some a ∧ lookupKey newT n = some b ∧ specStructEq a b = false)

/-! Concrete material used by the witness theorems. -/

/-- A small configuration. -/
def cfg0 : Config :=
  { chunkPath := "/chunks".toList, remotePath := "/remote".toList,
    tempPath := "/tmp/backup".toList, prefixDigits := 2 }

/-- A one-shard snapshot. -/
def snap0 : Snapshot :=
  [("0000".toList, .mk "0000".toList 7 10 true
      (.cons "a.bin".toList (.mk "a.bin".toList 7 10 false .nil) .nil))]

/-- `snap0` with the file size changed: a structurally different tree. -/
def snap1 : Snapshot :=
  [("0000".toList, .mk "0000".toList 9 10 true
      (.cons "a.bin".toList (.mk "a.bin".toList 9 10 false .nil) .nil))]

/-- The archive group covering prefix "00" with the single member "0000",
marked dirty. -/
def grp0 : ArchiveGroup :=
  { pfx := "00".toList, startRange := "0000".toList, endRange := "00ff".toList,
    archiveName := "0000-00ff.tar.gz".toList, directories := ["0000".toList],
    needsUpdate := true }

/-- Empty processing state. -/
def pst0 : PState := { checksums := [], result := emptyResult, tmp := [] }

/-- Prior metadata for the concrete runs: same snapshot, a recorded
checksum for the one group. -/
def md0 : BackupMetadata :=
  { version := 1, prefixDigits := 2, backupTime := 5, fileTree := snap0,
    checksums := [("0000-00ff.tar.gz".toList, "h0".toList)] }

/-- A metadata document with an unknown schema version. -/
def mdV99 : BackupMetadata := { md0 with version := 99 }

/-- A benign environment: the scan sees `snap0`, archives build and hash
to "h1", all storage operations succeed, no remote checksum files exist,
and the stored metadata parses to `md0`. -/
def envBase : Env :=
  { scanTree := .ok snap0,
    chunkDirs := .ok ["0000".toList],
    build := fun _ => .ok,
    checksumOf := fun _ => .ok "h1".toList,
    csFile := fun _ => .ok,
    fileExists := fun _ => .ok true,
    getFileContent := fun _ => .error "object not found",
    upload := fun _ _ => .ok (),
    parseMetadata := fun _ => .ok md0,
    writeLocalMetadata := fun _ => .ok (),
    now := 6, elapsed := 1 }

/-- Like `envBase` but the stored metadata parses to version 99 and the
metadata download succeeds. -/
def envV99 : Env :=
  { envBase with
    getFileContent := fun _ => .ok "{}".toList,
    parseMetadata := fun _ => .ok mdV99 }

/-- Environment whose remote checksum file for the group holds "h1" — the
hash the rebuilt archive will have. -/
def envSame : Env :=
  { envBase with getFileContent := fun _ => .ok "h1  0000-00ff.tar.gz".toList }

/-- Environment where building the archive of any group fails after the
scratch file was created. -/
def envBuildFail : Env :=
  { envBase with build := fun _ => .buildFail "read error" }

/-- Environment where the archive uploads but the companion checksum file
upload fails. -/
def envShaFail : Env :=
  { envBase with
    upload := fun l _ =>
      if l = pathJoin cfg0.tempPath grp0.archiveName ++ ".sha256".toList then
        .error "network error"
      else .ok () }

/-- Environment for an incremental run in which shard "0000" is new (the
prior tree is empty) and its archive build fails. -/
def envIncrFail : Env :=
  { envBase with
    getFileContent := fun p =>
      if p = pathJoin cfg0.remotePath metadataFileName then .ok "{}".toList
      else .error "object not found",
    parseMetadata := fun _ => .ok { md0 with fileTree := [] },
    build := fun _ => .buildFail "read error" }

/-- Environment for an incremental run with no filesystem changes: the
stored metadata holds exactly the tree the scan returns. -/
def envNoChange : Env :=
  { envBase with
    getFileContent := fun p =>
      if p = pathJoin cfg0.remotePath metadataFileName then .ok "{}".toList
      else .error "object not found" }

/-- A small filesystem root with one hex-named directory, one non-hex
directory and one file, for the scanner witnesses. -/
def fsRoot0 : List (GoStr × FsNode) :=
  [("0a1F".toList, .dir 3 (.cons "f.bin".toList (.file 5 4) .nil)),
   ("zz".toList, .dir 3 .nil),
   ("beef".toList, .file 9 2)]

/-! Lemmas about the association-list operations. -/

theorem lookupKey_setKey_self {α : Type} (m : List (GoStr × α)) (k : GoStr) (v : α) :
    lookupKey (setKey m k v) k = some v := by
  induction m with
  | nil => simp [setKey, lookupKey]
  | cons p rest ih =>
    obtain ⟨k1, v1⟩ := p
    by_cases h : k1 = k <;> simp [setKey, h, lookupKey, ih]

theorem lookupKey_setKey_ne {α : Type} (m : List (GoStr × α)) (k n : GoStr) (v : α)
    (h : n ≠ k) : lookupKey (setKey m k v) n = lookupKey m n := by
  induction m with
  | nil => simp [setKey, lookupKey, Ne.symm h]
  | cons p rest ih =>
    obtain ⟨k1, v1⟩ := p
    by_cases h1 : k1 = k
    · subst h1
      simp [setKey, lookupKey, Ne.symm h]
    · simp only [setKey, if_neg h1, lookupKey]
      by_cases h2 : k1 = n <;> simp [h2, ih]

theorem lookupKey_mem {α : Type} {m : List (GoStr × α)} {k : GoStr} {v : α}
    (h : lookupKey m k = some v) : (k, v) ∈ m := by
  induction m with
  | nil => simp [lookupKey] at h
  | cons p rest ih =>
    obtain ⟨k1, v1⟩ := p
    by_cases h1 : k1 = k
    · subst h1
      simp [lookupKey] at h
      simp [h]
    · simp only [lookupKey, if_neg h1] at h
      exact List.mem_cons_of_mem _ (ih h)

theorem lookupKey_isSome_of_mem {α : Type} {m : List (GoStr × α)} {k : GoStr} {v : α}
    (h : (k, v) ∈ m) : (lookupKey m k).isSome := by
  induction m with
  | nil => simp at h
  | cons p rest ih =>
    obtain ⟨k1, v1⟩ := p
    rcases List.mem_cons.mp h with h1 | h1
    · simp only [Prod.mk.injEq] at h1
      obtain ⟨rfl, rfl⟩ := h1
      simp [lookupKey]
    · by_cases h2 : k1 = k <;> simp [lookupKey, h2, ih h1]

theorem lookupKey_eq_none_iff {α : Type} {m : List (GoStr × α)} {k : GoStr} :
    lookupKey m k = none ↔ k ∉ m.map Prod.fst := by
  induction m with
  | nil => simp [lookupKey]
  | cons p rest ih =>
    obtain ⟨k1, v1⟩ := p
    simp only [lookupKey, List.map_cons, List.mem_cons]
    by_cases h1 : k1 = k
    · subst h1
      simp only [if_pos rfl]
      constructor
      · intro hh
        exact (Option.some_ne_none _ hh).elim
      · intro hh
        exact absurd (Or.inl trivial) hh
    · rw [if_neg h1, ih]
      constructor
      · intro hh hmem
        rcases hmem with he | hm
        · exact h1 he.symm
        · exact hh hm
      · exact fun hh hm => hh (Or.inr hm)

theorem lookupKey_of_mem_nodup {α : Type} {m : List (GoStr × α)} {k : GoStr} {v : α}
    (hn : (m.map Prod.fst).Nodup) (h : (k, v) ∈ m) : lookupKey m k = some v := by
  induction m with
  | nil => simp at h
  | cons p rest ih =>
    obtain ⟨k1, v1⟩ := p
    simp only [List.map_cons, List.nodup_cons] at hn
    rcases List.mem_cons.mp h with h1 | h1
    · simp only [Prod.mk.injEq] at h1
      obtain ⟨rfl, rfl⟩ := h1
      simp [lookupKey]
    · have hne : k1 ≠ k := by
        intro hh
        subst hh
        exact hn.1 (List.mem_map.mpr ⟨(k1, v), h1, rfl⟩)
      simp [lookupKey, hne, ih hn.2 h1]

/-! Lemmas about child maps and the tree measures. Induction over the
mutual inductive family is written in equation-compiler style. -/

theorem ChildMap.keys_eq : (cs : ChildMap) → cs.keys = cs.toList.map Prod.fst
  | .nil => rfl
  | .cons k v rest => by simp [ChildMap.keys, ChildMap.toList, ChildMap.keys_eq rest]

theorem ChildMap.lookup_mem : {cs : ChildMap} → {k : GoStr} → {v : FileTreeNode} →
    cs.lookup k = some v → (k, v) ∈ cs.toList
  | .nil, k, v, h => by simp [ChildMap.lookup] at h
  | .cons k1 v1 rest, k, v, h => by
    by_cases h1 : k1 = k
    · subst h1
      simp [ChildMap.lookup] at h
      simp [ChildMap.toList, h]
    · simp only [ChildMap.lookup, if_neg h1] at h
      exact List.mem_cons_of_mem _ (ChildMap.lookup_mem h)

theorem ChildMap.lookup_isSome_of_mem : {cs : ChildMap} → {k : GoStr} →
    {v : FileTreeNode} → (k, v) ∈ cs.toList → (cs.lookup k).isSome
  | .nil, k, v, h => by simp [ChildMap.toList] at h
  | .cons k1 v1 rest, k, v, h => by
    simp only [ChildMap.toList, List.mem_cons] at h
    rcases h with h1 | h1
    · simp only [Prod.mk.injEq] at h1
      obtain ⟨rfl, rfl⟩ := h1
      simp [ChildMap.lookup]
    · by_cases h2 : k1 = k <;>
        simp [ChildMap.lookup, h2, ChildMap.lookup_isSome_of_mem h1]

theorem ChildMap.lookup_isSome_iff {cs : ChildMap} {k : GoStr} :
    (cs.lookup k).isSome ↔ k ∈ cs.keys := by
  constructor
  · intro h
    obtain ⟨v, hv⟩ := Option.isSome_iff_exists.mp h
    rw [ChildMap.keys_eq]
    exact List.mem_map.mpr ⟨(k, v), ChildMap.lookup_mem hv, rfl⟩
  · intro h
    rw [ChildMap.keys_eq] at h
    obtain ⟨p, hp, he⟩ := List.mem_map.mp h
    obtain ⟨k1, v1⟩ := p
    simp only at he
    subst he
    exact ChildMap.lookup_isSome_of_mem hp

theorem keysNodup_iff : {cs : ChildMap} → (keysNodup cs = true ↔ cs.keys.Nodup)
  | .nil => by simp [keysNodup, ChildMap.keys]
  | .cons k v rest => by
    rw [keysNodup]
    simp only [Bool.and_eq_true, ChildMap.keys, List.nodup_cons,
      @keysNodup_iff rest, Bool.not_eq_true']
    constructor
    · intro hh
      refine ⟨fun hk => ?_, hh.2⟩
      have hs := ChildMap.lookup_isSome_iff.mpr hk
      simp [hh.1] at hs
    · intro hh
      refine ⟨?_, hh.2⟩
      by_cases hs : (ChildMap.lookup rest k).isSome
      · exact absurd (ChildMap.lookup_isSome_iff.mp hs) hh.1
      · simpa using hs

theorem ChildMap.lookup_of_mem_nodup : {cs : ChildMap} → {k : GoStr} →
    {v : FileTreeNode} → keysNodup cs = true → (k, v) ∈ cs.toList →
    cs.lookup k = some v
  | .nil, k, v, _, h => by simp [ChildMap.toList] at h
  | .cons k1 v1 rest, k, v, hn, h => by
    rw [keysNodup] at hn
    simp only [Bool.and_eq_true, Bool.not_eq_true'] at hn
    simp only [ChildMap.toList, List.mem_cons] at h
    rcases h with h1 | h1
    · simp only [Prod.mk.injEq] at h1
      obtain ⟨rfl, rfl⟩ := h1
      simp [ChildMap.lookup]
    · have hne : k1 ≠ k := by
        intro hh
        subst hh
        have hs := ChildMap.lookup_isSome_of_mem h1
        simp [hn.1] at hs
      simp [ChildMap.lookup, hne, ChildMap.lookup_of_mem_nodup hn.2 h1]

theorem ChildMap.length_eq_toList : (cs : ChildMap) → cs.length = cs.toList.length
  | .nil => rfl
  | .cons k v rest => by
    simp [ChildMap.length, ChildMap.toList, ChildMap.length_eq_toList rest]

theorem ChildMap.keys_length (cs : ChildMap) : cs.keys.length = cs.length := by
  rw [ChildMap.keys_eq, ChildMap.length_eq_toList, List.length_map]

theorem childrenWf_mem : {cs : ChildMap} → {k : GoStr} → {c : FileTreeNode} →
    childrenWf cs = true → (k, c) ∈ cs.toList → nodeWf c = true
  | .nil, k, c, _, h => by simp [ChildMap.toList] at h
  | .cons k1 v1 rest, k, c, hw, h => by
    rw [childrenWf] at hw
    simp only [Bool.and_eq_true] at hw
    simp only [ChildMap.toList, List.mem_cons] at h
    rcases h with h1 | h1
    · simp only [Prod.mk.injEq] at h1
      obtain ⟨rfl, rfl⟩ := h1
      exact hw.1
    · exact childrenWf_mem hw.2 h1

theorem nodeSize_le_of_mem : {cs : ChildMap} → {k : GoStr} → {c : FileTreeNode} →
    (k, c) ∈ cs.toList → nodeSize c ≤ childSize cs
  | .nil, k, c, h => by simp [ChildMap.toList] at h
  | .cons k1 v1 rest, k, c, h => by
    simp only [ChildMap.toList, List.mem_cons] at h
    rcases h with h1 | h1
    · simp only [Prod.mk.injEq] at h1
      obtain ⟨rfl, rfl⟩ := h1
      rw [childSize]
      omega
    · have hle := nodeSize_le_of_mem h1
      rw [childSize]
      omega

/-! Characterizations of the boolean loops of `hasTreeChanged` and of the
spec-side equality. -/

theorem oldChildrenChanged_eq_false_iff : (cs cs2 : ChildMap) →
    (oldChildrenChanged cs cs2 = false ↔
      ∀ p ∈ cs.toList, ∃ c2, cs2.lookup p.1 = some c2 ∧ hasTreeChanged p.2 c2 = false)
  | .nil, cs2 => by simp [oldChildrenChanged, ChildMap.toList]
  | .cons n c rest, cs2 => by
    rw [oldChildrenChanged]
    cases hl : ChildMap.lookup cs2 n with
    | none =>
      simp only [hl]
      constructor
      · intro hh
        simp at hh
      · intro hh
        obtain ⟨c2, hc2, _⟩ := hh (n, c) (by simp [ChildMap.toList])
        simp only at hc2
        rw [hl] at hc2
        cases hc2
    | some c2 =>
      simp only [hl, Bool.or_eq_false_iff]
      rw [oldChildrenChanged_eq_false_iff rest cs2]
      constructor
      · rintro ⟨h1, h2⟩ p hp
        simp only [ChildMap.toList, List.mem_cons] at hp
        rcases hp with he | hm
        · subst he
          exact ⟨c2, hl, h1⟩
        · exact h2 p hm
      · intro hh
        refine ⟨?_, fun p hp => hh p (by simp [ChildMap.toList, hp])⟩
        obtain ⟨c3, hc3, hch⟩ := hh (n, c) (by simp [ChildMap.toList])
        simp only at hc3
        rw [hl] at hc3
        cases hc3
        exact hch

theorem newChildMissing_eq_false_iff : (cs1 cs2 : ChildMap) →
    (newChildMissing cs1 cs2 = false ↔ ∀ k ∈ cs2.keys, (cs1.lookup k).isSome)
  | cs1, .nil => by simp [newChildMissing, ChildMap.keys]
  | cs1, .cons k v rest => by
    rw [newChildMissing]
    simp only [Bool.or_eq_false_iff, ChildMap.keys, List.mem_cons,
      newChildMissing_eq_false_iff cs1 rest]
    constructor
    · rintro ⟨h1, h2⟩ q hq
      rcases hq with rfl | hm
      · cases ho : ChildMap.lookup cs1 q <;> simp [ho] at h1 ⊢
      · exact h2 q hm
    · intro hh
      refine ⟨?_, fun q hq => hh q (Or.inr hq)⟩
      have hs := hh k (Or.inl rfl)
      cases ho : ChildMap.lookup cs1 k <;> simp [ho] at hs ⊢

theorem keySubset_iff {cs1 cs2 : ChildMap} :
    keySubset cs1 cs2 = true ↔ ∀ k ∈ cs1.keys, (cs2.lookup k).isSome := by
  simp [keySubset, List.all_eq_true]

theorem specCommonEq_eq_true_iff : (cs cs2 : ChildMap) →
    (specCommonEq cs cs2 = true ↔
      ∀ p ∈ cs.toList, ∀ c2, cs2.lookup p.1 = some c2 → specStructEq p.2 c2 = true)
  | .nil, cs2 => by simp [specCommonEq, ChildMap.toList]
  | .cons n c rest, cs2 => by
    rw [specCommonEq]
    simp only [Bool.and_eq_true]
    rw [specCommonEq_eq_true_iff rest cs2]
    cases hl : ChildMap.lookup cs2 n with
    | none =>
      constructor
      · rintro ⟨_, h2⟩ p hp c2 hc2
        simp only [ChildMap.toList, List.mem_cons] at hp
        rcases hp with rfl | hm
        · simp only at hc2
          rw [hl] at hc2
          cases hc2
        · exact h2 p hm c2 hc2
      · intro hh
        exact ⟨rfl, fun p hp c2 hc2 => hh p (by simp [ChildMap.toList, hp]) c2 hc2⟩
    | some c2 =>
      constructor
      · rintro ⟨h1, h2⟩ p hp c3 hc3
        simp only [ChildMap.toList, List.mem_cons] at hp
        rcases hp with rfl | hm
        · simp only at hc3
          rw [hl] at hc3
          cases hc3
          exact h1
        · exact h2 p hm c3 hc3
      · intro hh
        refine ⟨hh (n, c) (by simp [ChildMap.toList]) c2 hl,
          fun p hp c3 hc3 => hh p (by simp [ChildMap.toList, hp]) c3 hc3⟩

/-- Unfolding of `hasTreeChanged` on two directory nodes with equal
attributes. -/
theorem hasTreeChanged_dir_eq_false_iff (na nb : GoStr) (sz mt : Int)
    (cs cs2 : ChildMap) :
    hasTreeChanged (.mk na sz mt true cs) (.mk nb sz mt true cs2) = false ↔
      (cs.length = cs2.length ∧ oldChildrenChanged cs cs2 = false ∧
        newChildMissing cs cs2 = false) := by
  rw [hasTreeChanged]
  by_cases hlen : cs.length = cs2.length <;>
    by_cases hocc : oldChildrenChanged cs cs2 = true <;>
      by_cases hncm : newChildMissing cs cs2 = true <;>
        simp [hlen, hocc, hncm]

/-- Unfolding of `specStructEq` on two directory nodes with equal
attributes. -/
theorem specStructEq_dir_eq_true_iff (na nb : GoStr) (sz mt : Int)
    (cs cs2 : ChildMap) :
    specStructEq (.mk na sz mt true cs) (.mk nb sz mt true cs2) = true ↔
      (keySubset cs cs2 = true ∧ keySubset cs2 cs = true ∧
        specCommonEq cs cs2 = true) := by
  rw [specStructEq]
  simp [and_assoc]

/-- Bridge between the code's `hasTreeChanged` and the spec's structural
equality: on well-formed nodes (distinct child keys, as Go maps guarantee)
the code reports "unchanged" exactly when the spec's structural equality
holds. Induction on the combined node size. -/
theorem hasTreeChanged_eq_false_iff (N : Nat) :
    ∀ (a b : FileTreeNode), nodeSize a + nodeSize b ≤ N →
      nodeWf a = true → nodeWf b = true →
      (hasTreeChanged a b = false ↔ specStructEq a b = true) := by
  induction N with
  | zero =>
    rintro ⟨na, sz, mt, d, cs⟩ b h _ _
    rw [nodeSize] at h
    omega
  | succ N ih =>
    rintro ⟨na, sz, mt, d, cs⟩ ⟨nb, sz2, mt2, d2, cs2⟩ hsz hwa hwb
    by_cases h1 : sz = sz2
    case neg =>
      rw [hasTreeChanged, specStructEq]
      simp [h1]
    by_cases h2 : mt = mt2
    case neg =>
      rw [hasTreeChanged, specStructEq]
      simp [h2]
    by_cases h3 : d = d2
    case neg =>
      rw [hasTreeChanged, specStructEq]
      simp [h3]
    subst h1
    subst h2
    subst h3
    cases d with
    | false =>
      rw [hasTreeChanged, specStructEq]
      simp
    | true =>
      rw [nodeWf] at hwa hwb
      simp only [Bool.and_eq_true] at hwa hwb
      rw [hasTreeChanged_dir_eq_false_iff, specStructEq_dir_eq_true_iff]
      have hszN : childSize cs + childSize cs2 + 1 ≤ N := by
        rw [nodeSize, nodeSize] at hsz
        omega
      constructor
      · rintro ⟨hlen, hocc, hncm⟩
        have hold := (oldChildrenChanged_eq_false_iff cs cs2).mp hocc
        have hsub1 : keySubset cs cs2 = true := by
          rw [keySubset_iff]
          intro k hk
          rw [ChildMap.keys_eq] at hk
          obtain ⟨p, hp, he⟩ := List.mem_map.mp hk
          obtain ⟨c2, hc2, _⟩ := hold p hp
          subst he
          exact Option.isSome_iff_exists.mpr ⟨c2, hc2⟩
        have hsub2 : keySubset cs2 cs = true := by
          rw [keySubset_iff]
          exact (newChildMissing_eq_false_iff cs cs2).mp hncm
        have hcomm : specCommonEq cs cs2 = true := by
          rw [specCommonEq_eq_true_iff]
          intro p hp c2 hc2
          obtain ⟨c3, hc3, hch⟩ := hold p hp
          rw [hc2] at hc3
          cases hc3
          obtain ⟨kk, cc⟩ := p
          have hm2 := ChildMap.lookup_mem hc2
          have hs1 := nodeSize_le_of_mem hp
          have hs2 := nodeSize_le_of_mem hm2
          exact (ih cc c2 (by omega) (childrenWf_mem hwa.2 hp)
            (childrenWf_mem hwb.2 hm2)).mp hch
        exact ⟨hsub1, hsub2, hcomm⟩
      · rintro ⟨hsub1, hsub2, hcomm⟩
        have hmemiff : ∀ k, k ∈ cs.keys ↔ k ∈ cs2.keys := by
          intro k
          constructor
          · intro hk
            exact ChildMap.lookup_isSome_iff.mp (keySubset_iff.mp hsub1 k hk)
          · intro hk
            exact ChildMap.lookup_isSome_iff.mp (keySubset_iff.mp hsub2 k hk)
        have hlen : cs.length = cs2.length := by
          have hperm := (List.perm_ext_iff_of_nodup
            (keysNodup_iff.mp hwa.1) (keysNodup_iff.mp hwb.1)).mpr hmemiff
          have hle := hperm.length_eq
          rw [ChildMap.keys_length, ChildMap.keys_length] at hle
          exact hle
        refine ⟨hlen, ?_, ?_⟩
        · rw [oldChildrenChanged_eq_false_iff]
          intro p hp
          have hk : p.1 ∈ cs.keys := by
            rw [ChildMap.keys_eq]
            exact List.mem_map.mpr ⟨p, hp, rfl⟩
          obtain ⟨c2, hc2⟩ := Option.isSome_iff_exists.mp
            (keySubset_iff.mp hsub1 p.1 hk)
          refine ⟨c2, hc2, ?_⟩
          have hse := (specCommonEq_eq_true_iff cs cs2).mp hcomm p hp c2 hc2
          obtain ⟨kk, cc⟩ := p
          have hm2 := ChildMap.lookup_mem hc2
          have hs1 := nodeSize_le_of_mem hp
          have hs2 := nodeSize_le_of_mem hm2
          exact (ih cc c2 (by omega) (childrenWf_mem hwa.2 hp)
            (childrenWf_mem hwb.2 hm2)).mpr hse
        · rw [newChildMissing_eq_false_iff]
          exact keySubset_iff.mp hsub2

/-- The bridge without the explicit measure. -/
theorem hasTreeChanged_eq_false_iff_spec {a b : FileTreeNode}
    (hwa : nodeWf a = true) (hwb : nodeWf b = true) :
    hasTreeChanged a b = false ↔ specStructEq a b = true :=
  hasTreeChanged_eq_false_iff (nodeSize a + nodeSize b) a b le_rfl hwa hwb

/-- Spec-side structural equality is reflexive on well-formed nodes. -/
theorem specStructEq_refl (N : Nat) :
    ∀ a : FileTreeNode, nodeSize a ≤ N → nodeWf a = true →
      specStructEq a a = true := by
  induction N with
  | zero =>
    rintro ⟨na, sz, mt, d, cs⟩ h _
    rw [nodeSize] at h
    omega
  | succ N ih =>
    rintro ⟨na, sz, mt, d, cs⟩ hsz hw
    rw [nodeWf] at hw
    simp only [Bool.and_eq_true] at hw
    rw [specStructEq]
    cases d with
    | false => simp
    | true =>
      simp only [beq_self_eq_true, Bool.true_and, Bool.not_true, Bool.false_or,
        Bool.and_eq_true]
      have hsub : keySubset cs cs = true := by
        rw [keySubset_iff]
        intro k hk
        exact ChildMap.lookup_isSome_iff.mpr hk
      refine ⟨⟨hsub, hsub⟩, ?_⟩
      rw [specCommonEq_eq_true_iff]
      intro p hp c2 hc2
      have hc2m := ChildMap.lookup_of_mem_nodup hw.1 hp
      rw [hc2m] at hc2
      cases hc2
      have hs1 := nodeSize_le_of_mem hp
      rw [nodeSize] at hsz
      exact ih p.2 (by omega) (childrenWf_mem hw.2 hp)

/-- `hasTreeChanged` is irreflexive on well-formed nodes: an unchanged
tree is never reported as changed. -/
theorem hasTreeChanged_self {a : FileTreeNode} (hw : nodeWf a = true) :
    hasTreeChanged a a = false :=
  (hasTreeChanged_eq_false_iff_spec hw hw).mpr
    (specStructEq_refl (nodeSize a) a le_rfl hw)

/-- Membership in the differ's output characterized by the spec's
added/removed/structurally-changed trichotomy, on well-formed
snapshots. -/
theorem mem_compareFileTrees_iff {oldT newT : Snapshot} (hwo : snapWf oldT)
    (hwn : snapWf newT) (n : GoStr) :
    n ∈ compareFileTrees oldT newT ↔ specChanged oldT newT n := by
  rw [compareFileTrees, specChanged, List.mem_append]
  cases ho : lookupKey oldT n with
  | none =>
    cases hn : lookupKey newT n with
    | none =>
      constructor
      · rintro (h | h)
        · obtain ⟨e, he, rfl⟩ := List.mem_map.mp h
          have hmem := (List.mem_filter.mp he).1
          have hs := lookupKey_isSome_of_mem (m := newT) (k := e.1) (v := e.2)
            (by simpa using hmem)
          rw [hn] at hs
          cases hs
        · obtain ⟨e, he, rfl⟩ := List.mem_map.mp h
          have hmem := (List.mem_filter.mp he).1
          have hs := lookupKey_isSome_of_mem (m := oldT) (k := e.1) (v := e.2)
            (by simpa using hmem)
          rw [ho] at hs
          cases hs
      · rintro (⟨_, hs⟩ | ⟨hs, _⟩ | ⟨a, b, ha, hb, _⟩)
        · simp at hs
        · simp at hs
        · cases ha
    | some node =>
      constructor
      · intro _
        exact Or.inl ⟨rfl, rfl⟩
      · intro _
        refine Or.inl (List.mem_map.mpr ⟨(n, node), ?_, rfl⟩)
        refine List.mem_filter.mpr ⟨lookupKey_mem hn, ?_⟩
        simp [ho]
  | some o =>
    cases hn : lookupKey newT n with
    | none =>
      constructor
      · intro _
        exact Or.inr (Or.inl ⟨rfl, rfl⟩)
      · intro _
        refine Or.inr (List.mem_map.mpr ⟨(n, o), ?_, rfl⟩)
        refine List.mem_filter.mpr ⟨lookupKey_mem ho, ?_⟩
        simp [hn]
    | some node =>
      have hwof : nodeWf o = true := hwo.2 (n, o) (lookupKey_mem ho)
      have hwnf : nodeWf node = true := hwn.2 (n, node) (lookupKey_mem hn)
      constructor
      · rintro (h | h)
        · obtain ⟨e, he, hfst⟩ := List.mem_map.mp h
          obtain ⟨hmem, hP⟩ := List.mem_filter.mp he
          obtain ⟨k, v⟩ := e
          simp only at hfst
          subst hfst
          have hv : lookupKey newT k = some v := lookupKey_of_mem_nodup hwn.1 hmem
          rw [hn] at hv
          cases hv
          simp only [ho] at hP
          refine Or.inr (Or.inr ⟨o, node, rfl, rfl, ?_⟩)
          cases hspec : specStructEq o node
          · rfl
          · have hcontra := (hasTreeChanged_eq_false_iff_spec hwof hwnf).mpr hspec
            rw [hP] at hcontra
            cases hcontra
        · obtain ⟨e, he, hfst⟩ := List.mem_map.mp h
          obtain ⟨hmem, hP⟩ := List.mem_filter.mp he
          obtain ⟨k, v⟩ := e
          simp only at hfst
          subst hfst
          rw [hn] at hP
          simp at hP
      · rintro (⟨hnone, _⟩ | ⟨_, hnone⟩ | ⟨a, b, ha, hb2, hspec⟩)
        · cases hnone
        · cases hnone
        · cases ha
          cases hb2
          refine Or.inl (List.mem_map.mpr
            ⟨(n, node), List.mem_filter.mpr ⟨lookupKey_mem hn, ?_⟩, rfl⟩)
          simp only [ho]
          cases hch : hasTreeChanged o node
          · have hcontra := (hasTreeChanged_eq_false_iff_spec hwof hwnf).mp hch
            rw [hspec] at hcontra
            cases hcontra
          · rfl

/-- C5: for every pair of well-formed snapshots, the Snapshot Differ
returns exactly the shard names that are added, removed, or present in
both with structurally unequal trees, where structural equality is the
spec's recursive size/time/flag/child-set equality. -/
theorem c5_differ_refines_spec (oldT newT : Snapshot) (hwo : snapWf oldT)
    (hwn : snapWf newT) :
    ∀ n, n ∈ compareFileTrees oldT newT ↔ specChanged oldT newT n :=
  fun n => mem_compareFileTrees_iff hwo hwn n

/-- Witness for C5 at concrete snapshots: `snap1` changes the size of the
single file of `snap0`. -/
theorem c5_differ_refines_spec_witness :
    ("0000".toList ∈ compareFileTrees snap0 snap1 ↔
      specChanged snap0 snap1 "0000".toList) ∧
    "0000".toList ∈ compareFileTrees snap0 snap1 :=
  ⟨c5_differ_refines_spec snap0 snap1 ⟨by decide, by decide⟩ ⟨by decide, by decide⟩
    "0000".toList, by decide⟩

/-- On a well-formed snapshot the differ reports nothing against itself
(CompareFileTrees t t = empty). -/
theorem compareFileTrees_self_eq_nil {t : Snapshot} (hw : snapWf t) :
    compareFileTrees t t = [] := by
  rw [compareFileTrees]
  have h1 : (t.filter (fun e =>
      match lookupKey t e.1 with
      | none => true
      | some oldNode => hasTreeChanged oldNode e.2)) = [] := by
    rw [List.filter_eq_nil_iff]
    intro e he
    obtain ⟨k, v⟩ := e
    have hl : lookupKey t k = some v := lookupKey_of_mem_nodup hw.1 he
    simp [hl, hasTreeChanged_self (hw.2 (k, v) he)]
  have h2 : (t.filter (fun e => (lookupKey t e.1).isNone)) = [] := by
    rw [List.filter_eq_nil_iff]
    intro e he
    obtain ⟨k, v⟩ := e
    have hs := lookupKey_isSome_of_mem (m := t) (k := k) (v := v) he
    simp only [Option.isNone]
    cases hv : lookupKey t k
    · rw [hv] at hs
      cases hs
    · simp
  rw [h1, h2]
  rfl

/-- Marking with an empty changed set leaves every group untouched. -/
theorem markGroupsForUpdate_nil (groups : List ArchiveGroup) :
    markGroupsForUpdate groups [] = groups := by
  rw [markGroupsForUpdate]
  have hmap : ∀ g ∈ groups,
      (if g.directories.any (fun d => List.contains [] d) then
        { g with needsUpdate := true } else g) = g := by
    intro g _
    simp
  exact List.map_congr_left hmap |>.trans (List.map_id groups)

/-- Removing a path from the scratch set really removes it. -/
theorem removeFile_not_mem (tmp : List GoStr) (p : GoStr) : p ∉ removeFile tmp p := by
  intro h
  obtain ⟨_, hne⟩ := List.mem_filter.mp h
  simp at hne

/-- C3 counterexample: a stored metadata document whose version field is
99 (not the known version 1) is loaded successfully by
`loadRemoteMetadata` — the run is not aborted, contradicting the claim
that an unknown schemaVersion makes loading fail. -/
theorem c3_counterexample :
    loadRemoteMetadata cfg0 envV99 = .ok mdV99 ∧ mdV99.version = 99 ∧
      metadataVersion = 1 :=
  ⟨rfl, rfl, rfl⟩

/-- C3 amended: loading the prior metadata performs no schemaVersion
validation at all — whenever the existence check, the download and the
parse succeed, the parsed document is returned unchanged, whatever its
version field holds. -/
theorem c3_no_version_check (cfg : Config) (env : Env) (content : GoStr)
    (md : BackupMetadata)
    (hex : env.fileExists (pathJoin cfg.remotePath metadataFileName) = .ok true)
    (hget : env.getFileContent (pathJoin cfg.remotePath metadataFileName) = .ok content)
    (hparse : env.parseMetadata content = .ok md) :
    loadRemoteMetadata cfg env = .ok md := by
  simp only [loadRemoteMetadata, hex, hget, hparse]

/-- Witness for the amended C3: the version-99 document is returned
as-is. -/
theorem c3_no_version_check_witness :
    loadRemoteMetadata cfg0 envV99 = .ok mdV99 ∧ mdV99.version ≠ metadataVersion :=
  ⟨c3_no_version_check cfg0 envV99 "{}".toList mdV99 rfl rfl rfl, by decide⟩

/-- C8 counterexample: when building the archive fails after the scratch
file was created (CreateArchive's `os.Create` succeeded but adding a
directory failed), the group's processing errors out and the partial
scratch archive file is left in the temp directory. -/
theorem c8_counterexample :
    (processArchiveGroup cfg0 envBuildFail grp0 pst0).1.isSome = true ∧
      pathJoin cfg0.tempPath grp0.archiveName ∈
        (processArchiveGroup cfg0 envBuildFail grp0 pst0).2.tmp := by
  constructor
  · rfl
  · decide

/-- C8 amended: after a successful archive build the scratch archive file
is removed on every exit path of the group's processing (success,
checksum-unchanged skip, or any later failure); when `os.Create` itself
fails no scratch file appears; only a failure while writing the archive
contents (see the counterexample) leaves the partial file behind. -/
theorem c8_scratch_cleanup (cfg : Config) (env : Env) (g : ArchiveGroup) (st : PState) :
    (env.build g = .ok →
      pathJoin cfg.tempPath g.archiveName ∉ (processArchiveGroup cfg env g st).2.tmp) ∧
    (∀ e, env.build g = .createFail e → (processArchiveGroup cfg env g st).2.tmp = st.tmp) := by
  constructor
  · intro hb
    simp only [processArchiveGroup, createArchive, createChecksumFile, hb]
    cases env.checksumOf g with
    | error e => exact removeFile_not_mem _ _
    | ok checksum =>
      simp only
      repeat' split
      all_goals exact removeFile_not_mem _ _
  · intro e hb
    simp [processArchiveGroup, createArchive, hb]

/-- Witness for the amended C8: in the benign environment the scratch
file is gone after processing. -/
theorem c8_scratch_cleanup_witness :
    pathJoin cfg0.tempPath grp0.archiveName ∉
      (processArchiveGroup cfg0 envBase grp0 pst0).2.tmp :=
  (c8_scratch_cleanup cfg0 envBase grp0 pst0).1 rfl

/-- Shape of `processArchiveGroup`: it either fails, leaving checksums,
counters and details untouched (only `uploadedFiles` and the scratch set
may have grown), or succeeds, recording the computed checksum under the
group's archive name and bumping exactly one of the two counters; details
are only ever written under the group's own archive name. -/
theorem processArchiveGroup_shape (cfg : Config) (env : Env) (g : ArchiveGroup)
    (st : PState) :
    (∃ e U T, processArchiveGroup cfg env g st =
        (some e, { checksums := st.checksums,
                   result := { st.result with uploadedFiles := U }, tmp := T })) ∨
    (∃ ck U D T, processArchiveGroup cfg env g st =
        (none, { checksums := setKey st.checksums g.archiveName ck,
                 result := { st.result with
                   updatedArchives := st.result.updatedArchives + 1,
                   uploadedFiles := U, details := D }, tmp := T }) ∧
      ∀ name, name ≠ g.archiveName →
        lookupKey D name = lookupKey st.result.details name) ∨
    (∃ ck D T, processArchiveGroup cfg env g st =
        (none, { checksums := setKey st.checksums g.archiveName ck,
                 result := { st.result with
                   skippedArchives := st.result.skippedArchives + 1,
                   details := D }, tmp := T }) ∧
      ∀ name, name ≠ g.archiveName →
        lookupKey D name = lookupKey st.result.details name) := by
  simp only [processArchiveGroup, createArchive, createChecksumFile]
  cases env.build g <;> simp only
  case createFail e => exact Or.inl ⟨_, _, _, rfl⟩
  case buildFail e => exact Or.inl ⟨_, _, _, rfl⟩
  case ok =>
    cases env.checksumOf g <;> simp only
    case error e => exact Or.inl ⟨_, _, _, rfl⟩
    case ok checksum =>
      repeat' split
      all_goals
        first
          | exact Or.inl ⟨_, _, _, rfl⟩
          | (refine Or.inr (Or.inl ⟨_, _, _, _, rfl, ?_⟩)
             intro name hne
             simp [lookupKey_setKey_ne _ _ _ _ hne])
          | (refine Or.inr (Or.inr ⟨_, _, _, rfl, ?_⟩)
             intro name hne
             simp [lookupKey_setKey_ne _ _ _ _ hne])
          | (exfalso
             simp_all)

/-- Facts about one iteration of the full-backup group loop: the total is
untouched, the three outcome counters absorb exactly one group, the error
list grows by at most the group's own archive name, foreign checksum and
detail entries are preserved, and a group that entered the error list this
step left the checksum map untouched and its error text recorded. -/
theorem fullStep_facts (cfg : Config) (env : Env) (st : PState) (g : ArchiveGroup) :
    (fullStep cfg env st g).result.totalArchives = st.result.totalArchives ∧
    (fullStep cfg env st g).result.updatedArchives + (fullStep cfg env st g).result.skippedArchives
        + (fullStep cfg env st g).result.errorArchives.length
      = st.result.updatedArchives + st.result.skippedArchives
        + st.result.errorArchives.length + 1 ∧
    ((fullStep cfg env st g).result.errorArchives = st.result.errorArchives ∨
      (fullStep cfg env st g).result.errorArchives = st.result.errorArchives ++ [g.archiveName]) ∧
    (∀ name, name ≠ g.archiveName →
       lookupKey (fullStep cfg env st g).checksums name = lookupKey st.checksums name ∧
       lookupKey (fullStep cfg env st g).result.details name = lookupKey st.result.details name) ∧
    (g.archiveName ∈ (fullStep cfg env st g).result.errorArchives →
      g.archiveName ∉ st.result.errorArchives →
       (fullStep cfg env st g).checksums = st.checksums ∧
       (lookupKey (fullStep cfg env st g).result.details g.archiveName).isSome) := by
  refine ⟨?_, ?_, ?_, ?_, ?_⟩ <;>
    rcases processArchiveGroup_shape cfg env g st with
      ⟨e, U, T, hpr⟩ | ⟨ck, U, D, T, hpr, hD⟩ | ⟨ck, D, T, hpr, hD⟩
  · simp [fullStep, hpr]
  · simp [fullStep, hpr]
  · simp [fullStep, hpr]
  · simp [fullStep, hpr]
    try omega
  · simp [fullStep, hpr]
    try omega
  · simp [fullStep, hpr]
    try omega
  · exact Or.inr (by simp [fullStep, hpr])
  · exact Or.inl (by simp [fullStep, hpr])
  · exact Or.inl (by simp [fullStep, hpr])
  · intro name hne
    constructor
    · simp [fullStep, hpr]
    · simp [fullStep, hpr, lookupKey_setKey_ne _ _ _ _ hne]
  · intro name hne
    constructor
    · simp [fullStep, hpr, lookupKey_setKey_ne _ _ _ _ hne]
    · simp [fullStep, hpr]
      exact hD name hne
  · intro name hne
    constructor
    · simp [fullStep, hpr, lookupKey_setKey_ne _ _ _ _ hne]
    · simp [fullStep, hpr]
      exact hD name hne
  · intro hmem hnmem
    constructor
    · simp [fullStep, hpr]
    · simp [fullStep, hpr, lookupKey_setKey_self]
  · intro hmem hnmem
    refine absurd ?_ hnmem
    simpa [fullStep, hpr] using hmem
  · intro hmem hnmem
    refine absurd ?_ hnmem
    simpa [fullStep, hpr] using hmem

/-- The same facts for one iteration of the incremental group loop, which
additionally may take the not-dirty skip branch. -/
theorem incrStep_facts (cfg : Config) (env : Env) (st : PState) (g : ArchiveGroup) :
    (incrStep cfg env st g).result.totalArchives = st.result.totalArchives ∧
    (incrStep cfg env st g).result.updatedArchives + (incrStep cfg env st g).result.skippedArchives
        + (incrStep cfg env st g).result.errorArchives.length
      = st.result.updatedArchives + st.result.skippedArchives
        + st.result.errorArchives.length + 1 ∧
    ((incrStep cfg env st g).result.errorArchives = st.result.errorArchives ∨
      (incrStep cfg env st g).result.errorArchives = st.result.errorArchives ++ [g.archiveName]) ∧
    (∀ name, name ≠ g.archiveName →
       lookupKey (incrStep cfg env st g).checksums name = lookupKey st.checksums name ∧
       lookupKey (incrStep cfg env st g).result.details name = lookupKey st.result.details name) ∧
    (g.archiveName ∈ (incrStep cfg env st g).result.errorArchives →
      g.archiveName ∉ st.result.errorArchives →
       (incrStep cfg env st g).checksums = st.checksums ∧
       (lookupKey (incrStep cfg env st g).result.details g.archiveName).isSome) := by
  cases hd : g.needsUpdate with
  | true =>
    have he : incrStep cfg env st g = fullStep cfg env st g := by
      rw [incrStep, hd]
      simp
    rw [he]
    exact fullStep_facts cfg env st g
  | false =>
    have he : incrStep cfg env st g =
        { st with result := { st.result with
            skippedArchives := st.result.skippedArchives + 1,
            details := setKey st.result.details g.archiveName "unchanged, skipped" } } := by
      rw [incrStep, hd]
      simp
    rw [he]
    refine ⟨rfl, by simp; omega, Or.inl rfl, ?_, ?_⟩
    · intro name hne
      exact ⟨rfl, by simp [lookupKey_setKey_ne _ _ _ _ hne]⟩
    · intro hmem hnmem
      exact absurd hmem hnmem

/-- Facts about folding a group-loop body over a list of groups, for any
loop body enjoying the per-step facts: totals preserved, every group
contributes exactly one outcome, error names come from the processed
groups, foreign entries are untouched, and — when archive names are
distinct — a group that errored keeps its pre-run checksum entry and has
its error text recorded. -/
theorem foldl_step_facts (step : PState → ArchiveGroup → PState)
    (hfacts : ∀ st g,
      (step st g).result.totalArchives = st.result.totalArchives ∧
      (step st g).result.updatedArchives + (step st g).result.skippedArchives
          + (step st g).result.errorArchives.length
        = st.result.updatedArchives + st.result.skippedArchives
          + st.result.errorArchives.length + 1 ∧
      ((step st g).result.errorArchives = st.result.errorArchives ∨
        (step st g).result.errorArchives = st.result.errorArchives ++ [g.archiveName]) ∧
      (∀ name, name ≠ g.archiveName →
        lookupKey (step st g).checksums name = lookupKey st.checksums name ∧
        lookupKey (step st g).result.details name = lookupKey st.result.details name) ∧
      (g.archiveName ∈ (step st g).result.errorArchives →
        g.archiveName ∉ st.result.errorArchives →
        (step st g).checksums = st.checksums ∧
        (lookupKey (step st g).result.details g.archiveName).isSome)) :
    ∀ (groups : List ArchiveGroup) (st : PState),
      (groups.foldl step st).result.totalArchives = st.result.totalArchives ∧
      (groups.foldl step st).result.updatedArchives + (groups.foldl step st).result.skippedArchives
          + (groups.foldl step st).result.errorArchives.length
        = st.result.updatedArchives + st.result.skippedArchives
          + st.result.errorArchives.length + groups.length ∧
      (∀ name, name ∈ (groups.foldl step st).result.errorArchives →
        name ∈ st.result.errorArchives ∨ name ∈ groups.map (fun g => g.archiveName)) ∧
      (∀ name, name ∉ groups.map (fun g => g.archiveName) →
        lookupKey (groups.foldl step st).checksums name = lookupKey st.checksums name ∧
        lookupKey (groups.foldl step st).result.details name
          = lookupKey st.result.details name) ∧
      ((groups.map (fun g => g.archiveName)).Nodup →
        ∀ name, name ∈ (groups.foldl step st).result.errorArchives →
          name ∉ st.result.errorArchives →
          lookupKey (groups.foldl step st).checksums name = lookupKey st.checksums name ∧
          (lookupKey (groups.foldl step st).result.details name).isSome) := by
  intro groups
  induction groups with
  | nil =>
    intro st
    refine ⟨rfl, by simp, fun name h => Or.inl h, fun name _ => ⟨rfl, rfl⟩, ?_⟩
    intro _ name hmem hnmem
    exact absurd hmem hnmem
  | cons g rest ih =>
    intro st
    obtain ⟨hf1, hf2, hf3, hf4, hf5⟩ := hfacts st g
    obtain ⟨ih1, ih2, ih3, ih4, ih5⟩ := ih (step st g)
    simp only [List.foldl_cons]
    refine ⟨ih1.trans hf1, by rw [ih2, hf2, List.length_cons]; omega, ?_, ?_, ?_⟩
    · intro name hmem
      rcases ih3 name hmem with h1 | h1
      · rcases hf3 with he | he
        · rw [he] at h1
          exact Or.inl h1
        · rw [he] at h1
          rcases List.mem_append.mp h1 with h2 | h2
          · exact Or.inl h2
          · simp only [List.mem_singleton] at h2
            subst h2
            exact Or.inr (by simp)
      · exact Or.inr (by simp [h1])
    · intro name hnmem
      simp only [List.map_cons, List.mem_cons] at hnmem
      push_neg at hnmem
      obtain ⟨h1, h2⟩ := ih4 name (by simpa using hnmem.2)
      obtain ⟨h3, h4⟩ := hf4 name hnmem.1
      exact ⟨h1.trans h3, h2.trans h4⟩
    · intro hnodup name hmem hnmem
      simp only [List.map_cons, List.nodup_cons] at hnodup
      by_cases hst1 : name ∈ (step st g).result.errorArchives
      · -- the error happened at this step
        have hng : name = g.archiveName := by
          rcases hf3 with he | he
          · rw [he] at hst1
            exact absurd hst1 hnmem
          · rw [he] at hst1
            rcases List.mem_append.mp hst1 with h2 | h2
            · exact absurd h2 hnmem
            · simpa using h2
        subst hng
        obtain ⟨hcs, hdet⟩ := hf5 hst1 hnmem
        have hout : g.archiveName ∉ rest.map (fun g => g.archiveName) := hnodup.1
        obtain ⟨h1, h2⟩ := ih4 g.archiveName hout
        refine ⟨by rw [h1, hcs], ?_⟩
        rw [h2]
        exact hdet
      · obtain ⟨h1, h2⟩ := ih5 hnodup.2 name hmem hst1
        have hng : name ≠ g.archiveName := by
          intro he
          subst he
          rcases ih3 g.archiveName hmem with h3 | h3
          · exact hst1 h3
          · exact hnodup.1 h3
        obtain ⟨h3, h4⟩ := hf4 name hng
        exact ⟨h1.trans h3, h2⟩

/-- Eliminator for a successful full run: recover the intermediate scan,
listing, grouping and the final folded state. -/
theorem runFullBackup_ok_elim (cfg : Config) (env : Env) (out : RunOutput)
    (h : runFullBackup cfg env = .ok out) :
    ∃ fileTree dirs groups,
      env.scanTree = .ok fileTree ∧ env.chunkDirs = .ok dirs ∧
      generateArchiveGroups dirs cfg.prefixDigits = .ok groups ∧
      (let st := groups.foldl (fullStep cfg env) ⟨[], emptyResult, []⟩
       out.result = { st.result with
           totalArchives := groups.length, duration := env.elapsed } ∧
       out.metadata = ⟨metadataVersion, cfg.prefixDigits, env.now, fileTree,
         st.checksums⟩) := by
  simp only [runFullBackup] at h
  cases hscan : env.scanTree with
  | error e =>
    simp only [hscan] at h
    simp at h
  | ok fileTree =>
    simp only [hscan] at h
    cases hdirs : env.chunkDirs with
    | error e =>
      simp only [hdirs] at h
      simp at h
    | ok dirs =>
      simp only [hdirs] at h
      cases hgen : generateArchiveGroups dirs cfg.prefixDigits with
      | error e =>
        simp only [hgen] at h
        simp at h
      | ok groups =>
        simp only [hgen] at h
        cases hsave : saveAndUploadMetadata cfg env
            { version := metadataVersion, prefixDigits := cfg.prefixDigits,
              backupTime := env.now, fileTree := fileTree,
              checksums := (groups.foldl (fullStep cfg env)
                { checksums := [], result := emptyResult, tmp := [] }).checksums } with
        | error e =>
          simp only [hsave] at h
          simp at h
        | ok u =>
          simp only [hsave] at h
          simp only [Except.ok.injEq] at h
          subst h
          exact ⟨fileTree, dirs, groups, rfl, rfl, hgen, rfl, rfl⟩

/-- Eliminator for a successful incremental run: recover the prior
metadata, the scan, the listing, the (marked) groups and the final folded
state. -/
theorem runIncrementalBackup_ok_elim (cfg : Config) (env : Env) (out : RunOutput)
    (h : runIncrementalBackup cfg env = .ok out) :
    ∃ oldMetadata currentFileTree dirs groups0,
      loadRemoteMetadata cfg env = .ok oldMetadata ∧
      env.scanTree = .ok currentFileTree ∧ env.chunkDirs = .ok dirs ∧
      generateArchiveGroups dirs oldMetadata.prefixDigits = .ok groups0 ∧
      (let groups := markGroupsForUpdate groups0
         (compareFileTrees oldMetadata.fileTree currentFileTree)
       let st := groups.foldl (incrStep cfg env) ⟨oldMetadata.checksums, emptyResult, []⟩
       out.result = { st.result with
           totalArchives := groups.length, duration := env.elapsed } ∧
       out.metadata = ⟨metadataVersion, oldMetadata.prefixDigits, env.now,
         currentFileTree, st.checksums⟩) := by
  simp only [runIncrementalBackup] at h
  cases hload : loadRemoteMetadata cfg env with
  | error e =>
    simp only [hload] at h
    simp at h
  | ok oldMetadata =>
    simp only [hload] at h
    cases hscan : env.scanTree with
    | error e =>
      simp only [hscan] at h
      simp at h
    | ok currentFileTree =>
      simp only [hscan] at h
      cases hdirs : env.chunkDirs with
      | error e =>
        simp only [hdirs] at h
        simp at h
      | ok dirs =>
        simp only [hdirs] at h
        cases hgen : generateArchiveGroups dirs oldMetadata.prefixDigits with
        | error e =>
          simp only [hgen] at h
          simp at h
        | ok groups0 =>
          simp only [hgen] at h
          cases hsave : saveAndUploadMetadata cfg env
              { version := metadataVersion, prefixDigits := oldMetadata.prefixDigits,
                backupTime := env.now, fileTree := currentFileTree,
                checksums := ((markGroupsForUpdate groups0
                    (compareFileTrees oldMetadata.fileTree currentFileTree)).foldl
                  (incrStep cfg env)
                  { checksums := oldMetadata.checksums, result := emptyResult,
                    tmp := [] }).checksums } with
          | error e =>
            simp only [hsave] at h
            simp at h
          | ok u =>
            simp only [hsave] at h
            simp only [Except.ok.injEq] at h
            subst h
            exact ⟨oldMetadata, currentFileTree, dirs, groups0, rfl, rfl, rfl, hgen, rfl, rfl⟩

/-! Facts about the prefix-bucketing loop of GenerateArchiveGroups. -/

theorem bucketAdd_lookup_self (bs : List (GoStr × List GoStr)) (p : GoStr) (d : GoStr) :
    lookupKey (bucketAdd bs p d) p = some ((lookupKey bs p).getD [] ++ [d]) := by
  induction bs with
  | nil => simp [bucketAdd, lookupKey]
  | cons b rest ih =>
    obtain ⟨q, ds⟩ := b
    by_cases hq : q = p
    · subst hq
      simp [bucketAdd, lookupKey]
    · simp [bucketAdd, hq, lookupKey, ih]

theorem bucketAdd_lookup_ne (bs : List (GoStr × List GoStr)) (p q : GoStr) (d : GoStr)
    (h : q ≠ p) : lookupKey (bucketAdd bs p d) q = lookupKey bs q := by
  induction bs with
  | nil => simp [bucketAdd, lookupKey, Ne.symm h]
  | cons b rest ih =>
    obtain ⟨k, ds⟩ := b
    by_cases hk : k = p
    · subst hk
      simp [bucketAdd, lookupKey, Ne.symm h]
    · simp only [bucketAdd, if_neg hk, lookupKey]
      by_cases hq : k = q <;> simp [hq, ih]

theorem bucketAdd_keys (bs : List (GoStr × List GoStr)) (p : GoStr) (d : GoStr) :
    (bucketAdd bs p d).map Prod.fst
      = if p ∈ bs.map Prod.fst then bs.map Prod.fst else bs.map Prod.fst ++ [p] := by
  induction bs with
  | nil => simp [bucketAdd]
  | cons b rest ih =>
    obtain ⟨k, ds⟩ := b
    by_cases hk : k = p
    · subst hk
      simp [bucketAdd]
    · simp only [bucketAdd, if_neg hk, List.map_cons, ih]
      by_cases hmem : p ∈ rest.map Prod.fst
      · simp [hmem, Ne.symm hk]
      · simp [hmem, Ne.symm hk]

theorem bucketAdd_keys_nodup (bs : List (GoStr × List GoStr)) (p : GoStr) (d : GoStr)
    (h : (bs.map Prod.fst).Nodup) : ((bucketAdd bs p d).map Prod.fst).Nodup := by
  rw [bucketAdd_keys]
  by_cases hmem : p ∈ bs.map Prod.fst
  · simpa [hmem] using h
  · simp only [if_neg hmem]
    rw [List.nodup_append]
    refine ⟨h, List.nodup_singleton p, ?_⟩
    intro a ha hb
    simp only [List.mem_singleton] at hb
    subst hb
    exact hmem ha

/-- Master invariant of the bucket fold of GenerateArchiveGroups: starting
from an accumulator with distinct keys whose buckets hold only length-4
names from `dirs0` with matching prefixes, the fold preserves all of it,
preserves existing members, and files every length-4 name of the processed
list under its prefix. -/
theorem bucketFold_facts (pd : Nat) (dirs0 : List GoStr) :
    ∀ (dirs : List GoStr) (bs : List (GoStr × List GoStr)),
      (∀ d ∈ dirs, d ∈ dirs0) →
      (bs.map Prod.fst).Nodup →
      (∀ q ds, lookupKey bs q = some ds →
        ds ≠ [] ∧ ∀ x ∈ ds, x ∈ dirs0 ∧ x.length = 4 ∧ x.take pd = q) →
      ((dirs.foldl
          (fun acc d => if d.length = 4 then bucketAdd acc (d.take pd) d else acc)
          bs).map Prod.fst).Nodup ∧
      (∀ q ds, lookupKey (dirs.foldl
          (fun acc d => if d.length = 4 then bucketAdd acc (d.take pd) d else acc)
          bs) q = some ds →
        ds ≠ [] ∧ ∀ x ∈ ds, x ∈ dirs0 ∧ x.length = 4 ∧ x.take pd = q) ∧
      (∀ q d0, (∃ ds, lookupKey bs q = some ds ∧ d0 ∈ ds) →
        ∃ ds, lookupKey (dirs.foldl
          (fun acc d => if d.length = 4 then bucketAdd acc (d.take pd) d else acc)
          bs) q = some ds ∧ d0 ∈ ds) ∧
      (∀ d ∈ dirs, d.length = 4 →
        ∃ ds, lookupKey (dirs.foldl
          (fun acc d => if d.length = 4 then bucketAdd acc (d.take pd) d else acc)
          bs) (d.take pd) = some ds ∧ d ∈ ds) := by
  intro dirs
  induction dirs with
  | nil =>
    intro bs hsub hnodup hinv
    exact ⟨hnodup, hinv, fun q d0 hex => hex, fun d hd => absurd hd (by simp)⟩
  | cons d rest ih =>
    intro bs hsub hnodup hinv
    simp only [List.foldl_cons]
    by_cases hlen : d.length = 4
    · simp only [if_pos hlen]
      have hd0 : d ∈ dirs0 := hsub d (by simp)
      have hnodup1 : ((bucketAdd bs (d.take pd) d).map Prod.fst).Nodup :=
        bucketAdd_keys_nodup bs _ d hnodup
      have hinv1 : ∀ q ds, lookupKey (bucketAdd bs (d.take pd) d) q = some ds →
          ds ≠ [] ∧ ∀ x ∈ ds, x ∈ dirs0 ∧ x.length = 4 ∧ x.take pd = q := by
        intro q ds hq
        by_cases hqp : q = d.take pd
        · subst hqp
          rw [bucketAdd_lookup_self] at hq
          cases hq
          refine ⟨by simp, ?_⟩
          intro x hx
          rcases List.mem_append.mp hx with hx1 | hx1
          · cases hbs : lookupKey bs (d.take pd) with
            | none => simp [hbs] at hx1
            | some old =>
              obtain ⟨_, hold⟩ := hinv _ _ hbs
              simp only [hbs, Option.getD_some] at hx1
              exact hold x hx1
          · simp only [List.mem_singleton] at hx1
            subst hx1
            exact ⟨hd0, hlen, rfl⟩
        · rw [bucketAdd_lookup_ne _ _ _ _ hqp] at hq
          exact hinv q ds hq
      obtain ⟨f1, f2, f3, f4⟩ := ih (bucketAdd bs (d.take pd) d)
        (fun x hx => hsub x (by simp [hx])) hnodup1 hinv1
      refine ⟨f1, f2, ?_, ?_⟩
      · intro q d0 hex
        apply f3
        obtain ⟨ds, hds, hd0m⟩ := hex
        by_cases hqp : q = d.take pd
        · subst hqp
          rw [bucketAdd_lookup_self]
          exact ⟨_, rfl, by simp [hds, hd0m]⟩
        · rw [bucketAdd_lookup_ne _ _ _ _ hqp]
          exact ⟨ds, hds, hd0m⟩
      · intro x hx hxlen
        rcases List.mem_cons.mp hx with rfl | hxr
        · apply f3
          rw [bucketAdd_lookup_self]
          exact ⟨_, rfl, by simp⟩
        · exact f4 x hxr hxlen
    · simp only [if_neg hlen]
      obtain ⟨f1, f2, f3, f4⟩ := ih bs (fun x hx => hsub x (by simp [hx])) hnodup hinv
      refine ⟨f1, f2, f3, ?_⟩
      intro x hx hxlen
      rcases List.mem_cons.mp hx with rfl | hxr
      · exact absurd hxlen hlen
      · exact f4 x hxr hxlen

/-- Everything GenerateArchiveGroups guarantees about a successful result:
prefix digits in range, per-group field equations and member facts,
distinct prefixes, strict prefix ordering, and completeness for every
accepted name. -/
theorem generateArchiveGroups_ok_facts (dirs : List GoStr) (pd : Int)
    (gs : List ArchiveGroup) (h : generateArchiveGroups dirs pd = .ok gs) :
    1 ≤ pd ∧ pd ≤ 4 ∧
    (∀ g ∈ gs, g.needsUpdate = false ∧
      g.startRange = g.pfx ++ List.replicate (4 - pd.toNat) '0' ∧
      g.endRange = g.pfx ++ List.replicate (4 - pd.toNat) 'f' ∧
      g.archiveName = g.startRange ++ '-' :: (g.endRange ++ ".tar.gz".toList) ∧
      g.pfx.length = pd.toNat ∧
      List.Sorted (· ≤ ·) g.directories ∧
      g.directories ≠ [] ∧
      (∀ d ∈ g.directories, d ∈ dirs ∧ d.length = 4 ∧ d.take pd.toNat = g.pfx)) ∧
    (gs.map (fun g => g.pfx)).Nodup ∧
    List.Pairwise (fun g g2 => g.pfx < g2.pfx) gs ∧
    (∀ d ∈ dirs, d.length = 4 → ∃ g ∈ gs, d ∈ g.directories) := by
  rw [generateArchiveGroups] at h
  by_cases hb : pd < 1 ∨ pd > 4
  · rw [if_pos hb] at h
    cases h
  · rw [if_neg hb] at h
    push_neg at hb
    simp only [Except.ok.injEq] at h
    obtain ⟨hnodup, hinv, hmono, hcompl⟩ := bucketFold_facts pd.toNat dirs dirs []
      (fun d hd => hd) (by simp) (by intro q ds hq; simp [lookupKey] at hq)
    rw [← buildBuckets] at hnodup hinv hmono hcompl
    haveI hTot : IsTotal ArchiveGroup (fun g g2 => g.pfx ≤ g2.pfx) :=
      ⟨fun a b => le_total a.pfx b.pfx⟩
    haveI hTrans : IsTrans ArchiveGroup (fun g g2 => g.pfx ≤ g2.pfx) :=
      ⟨fun a b c hab hbc => le_trans hab hbc⟩
    have hgmem : ∀ g ∈ gs, ∃ q ds,
        lookupKey (buildBuckets dirs pd.toNat) q = some ds ∧
        g.pfx = q ∧ g.startRange = q ++ List.replicate (4 - pd.toNat) '0' ∧
        g.endRange = q ++ List.replicate (4 - pd.toNat) 'f' ∧
        g.archiveName = (q ++ List.replicate (4 - pd.toNat) '0') ++ '-' ::
          ((q ++ List.replicate (4 - pd.toNat) 'f') ++ ".tar.gz".toList) ∧
        g.directories = List.insertionSort (· ≤ ·) ds ∧
        g.needsUpdate = false := by
      intro g hg
      rw [← h, List.mem_insertionSort] at hg
      obtain ⟨b, hbm, hfb⟩ := List.mem_map.mp hg
      obtain ⟨q, ds⟩ := b
      subst hfb
      exact ⟨q, ds, lookupKey_of_mem_nodup hnodup hbm, rfl, rfl, rfl,
        by simp [calculateRange], rfl, rfl⟩
    have hpfx_nodup : (gs.map (fun g => g.pfx)).Nodup := by
      rw [← h]
      refine (List.Perm.nodup_iff ((List.perm_insertionSort _ _).map _)).mpr ?_
      rw [List.map_map]
      exact hnodup
    have hsorted : List.Sorted (fun g g2 : ArchiveGroup => g.pfx ≤ g2.pfx) gs := by
      rw [← h]
      exact List.sorted_insertionSort _ _
    refine ⟨by omega, by omega, ?_, hpfx_nodup, ?_, ?_⟩
    · intro g hg
      obtain ⟨q, ds, hlook, hp1, hp2, hp3, hp4, hp5, hp6⟩ := hgmem g hg
      obtain ⟨hne, hmem⟩ := hinv q ds hlook
      have hqlen : q.length = pd.toNat := by
        obtain ⟨x, hx⟩ := List.exists_mem_of_ne_nil ds hne
        obtain ⟨_, hxlen, hxtake⟩ := hmem x hx
        rw [← hxtake, List.length_take, hxlen]
        omega
      refine ⟨hp6, by rw [hp2, hp1], by rw [hp3, hp1], ?_, by rw [hp1, hqlen], ?_, ?_, ?_⟩
      · rw [hp4, hp2, hp3]
      · rw [hp5]
        exact List.sorted_insertionSort _ _
      · rw [hp5]
        intro hnil
        obtain ⟨x, hx⟩ := List.exists_mem_of_ne_nil ds hne
        have hxs : x ∈ List.insertionSort (· ≤ ·) ds := by
          rw [List.mem_insertionSort]
          exact hx
        rw [hnil] at hxs
        simp at hxs
      · intro d hd
        rw [hp5, List.mem_insertionSort] at hd
        obtain ⟨hd1, hd2, hd3⟩ := hmem d hd
        exact ⟨hd1, hd2, by rw [hd3, hp1]⟩
    · have hnd : List.Pairwise (fun g g2 : ArchiveGroup => g.pfx ≠ g2.pfx) gs :=
        List.pairwise_map.mp hpfx_nodup
      exact (hsorted.and hnd).imp (fun hp => lt_of_le_of_ne hp.1 hp.2)
    · intro d hd hlen
      obtain ⟨ds, hlook, hdm⟩ := hcompl d hd hlen
      have hpm : (d.take pd.toNat, ds) ∈ buildBuckets dirs pd.toNat := lookupKey_mem hlook
      refine ⟨{ pfx := d.take pd.toNat, startRange := (calculateRange (d.take pd.toNat) pd.toNat).1, endRange := (calculateRange (d.take pd.toNat) pd.toNat).2, archiveName := (calculateRange (d.take pd.toNat) pd.toNat).1 ++ '-' :: (calculateRange (d.take pd.toNat) pd.toNat).2 ++ ".tar.gz".toList, directories := List.insertionSort (· ≤ ·) ds, needsUpdate := false }, ?_, ?_⟩
      · rw [← h, List.mem_insertionSort]
        exact List.mem_map.mpr ⟨(d.take pd.toNat, ds), hpm, by rfl⟩
      · exact (List.mem_insertionSort _).mpr hdm

/-- Marking groups dirty does not change the archive names. -/
theorem markGroupsForUpdate_map_archiveName (gs : List ArchiveGroup) (c : List GoStr) :
    (markGroupsForUpdate gs c).map (fun g => g.archiveName)
      = gs.map (fun g => g.archiveName) := by
  rw [markGroupsForUpdate, List.map_map]
  refine List.map_congr_left ?_
  intro g _
  simp only [Function.comp]
  split <;> rfl

/-- Generated groups have pairwise distinct archive names: the name is an
injective image of the group prefix. -/
theorem generateArchiveGroups_names_nodup (dirs : List GoStr) (pd : Int)
    (gs : List ArchiveGroup) (h : generateArchiveGroups dirs pd = .ok gs) :
    (gs.map (fun g => g.archiveName)).Nodup := by
  obtain ⟨_, _, hfacts, hpfx_nodup, hpair, _⟩ := generateArchiveGroups_ok_facts dirs pd gs h
  have hgs_nodup : gs.Nodup := by
    refine hpair.imp ?_
    intro a b hab heq
    rw [heq] at hab
    exact lt_irrefl _ hab
  refine List.Nodup.map_on ?_ hgs_nodup
  intro x hx y hy hxy
  obtain ⟨_, hsrx, _, hanx, hplx, _, _, _⟩ := hfacts x hx
  obtain ⟨_, hsry, _, hany, hply, _, _, _⟩ := hfacts y hy
  have hsrlen : x.startRange.length = y.startRange.length := by
    rw [hsrx, hsry]
    simp [hplx, hply]
  rw [hanx, hany] at hxy
  obtain ⟨hsr_eq, _⟩ := List.append_inj hxy hsrlen
  have hplen : x.pfx.length = y.pfx.length := by rw [hplx, hply]
  rw [hsrx, hsry] at hsr_eq
  obtain ⟨hpfx_eq, _⟩ := List.append_inj hsr_eq hplen
  exact List.inj_on_of_nodup_map hpfx_nodup hx hy hpfx_eq

/-- Folding the incremental loop over groups none of which are marked for
update only counts skips. -/
theorem foldl_incr_all_skip (cfg : Config) (env : Env) :
    ∀ (groups : List ArchiveGroup) (st : PState),
      (∀ g ∈ groups, g.needsUpdate = false) →
      (groups.foldl (incrStep cfg env) st).result.updatedArchives
          = st.result.updatedArchives ∧
      (groups.foldl (incrStep cfg env) st).result.skippedArchives
          = st.result.skippedArchives + groups.length := by
  intro groups
  induction groups with
  | nil => intro st _; exact ⟨rfl, by simp⟩
  | cons g rest ih =>
    intro st hall
    have hd : g.needsUpdate = false := hall g (by simp)
    have hstep : incrStep cfg env st g =
        { st with result := { st.result with
            skippedArchives := st.result.skippedArchives + 1,
            details := setKey st.result.details g.archiveName "unchanged, skipped" } } := by
      rw [incrStep, hd]
      simp
    simp only [List.foldl_cons, hstep]
    obtain ⟨ih1, ih2⟩ := ih _ (fun x hx => hall x (by simp [hx]))
    refine ⟨ih1, ?_⟩
    rw [ih2]
    simp
    omega

/-- C4: for every directory-name list and prefixDigits in [1,4],
GenerateArchiveGroups succeeds; every accepted length-4 name lands in
exactly one group, whose prefix is the name's first prefixDigits
characters; members are sorted; ranges are the prefix padded with '0'/'f'
to length 4; groups are strictly sorted by prefix. Outside [1,4] it fails
with the invalid-prefix-digits error before any work. -/
theorem c4_grouping (dirs : List GoStr) (pd : Int) :
    (1 ≤ pd → pd ≤ 4 → ∃ gs, generateArchiveGroups dirs pd = .ok gs ∧
      (∀ d ∈ dirs, d.length = 4 → ∃ g, g ∈ gs ∧ d ∈ g.directories ∧
        g.pfx = d.take pd.toNat ∧ ∀ g2 ∈ gs, d ∈ g2.directories → g2 = g) ∧
      (∀ g ∈ gs, List.Sorted (· ≤ ·) g.directories ∧
        g.pfx.length = pd.toNat ∧
        g.startRange = g.pfx ++ List.replicate (4 - pd.toNat) '0' ∧
        g.endRange = g.pfx ++ List.replicate (4 - pd.toNat) 'f') ∧
      List.Pairwise (fun g g2 => g.pfx < g2.pfx) gs) ∧
    (pd < 1 ∨ 4 < pd →
      generateArchiveGroups dirs pd = .error "prefix digits must be between 1 and 4") := by
  constructor
  · intro h1 h4
    obtain ⟨gs, hgs⟩ : ∃ gs, generateArchiveGroups dirs pd = .ok gs := by
      rw [generateArchiveGroups, if_neg (by omega)]
      exact ⟨_, rfl⟩
    obtain ⟨_, _, hfacts, hnodup, hpair, hcompl⟩ :=
      generateArchiveGroups_ok_facts dirs pd gs hgs
    refine ⟨gs, hgs, ?_, ?_, hpair⟩
    · intro d hd hlen
      obtain ⟨g, hg, hdg⟩ := hcompl d hd hlen
      obtain ⟨_, _, _, _, _, _, _, hmem⟩ := hfacts g hg
      refine ⟨g, hg, hdg, ((hmem d hdg).2.2).symm, ?_⟩
      intro g2 hg2 hdg2
      obtain ⟨_, _, _, _, _, _, _, hmem2⟩ := hfacts g2 hg2
      have hpfxeq : g2.pfx = g.pfx := by
        rw [← (hmem d hdg).2.2, ← (hmem2 d hdg2).2.2]
      exact List.inj_on_of_nodup_map hnodup hg2 hg hpfxeq
    · intro g hg
      obtain ⟨_, hsr, her, _, hpl, hsorted, _, _⟩ := hfacts g hg
      exact ⟨hsorted, hpl, hsr, her⟩
  · intro hbad
    rw [generateArchiveGroups, if_pos (by omega)]

/-- Witness for C4 at the spec's scenario (prefixDigits 2 over seven
shards) and at an out-of-range prefixDigits. -/
theorem c4_grouping_witness :
    (∃ gs, generateArchiveGroups ["0000".toList, "0001".toList, "00ff".toList,
        "0100".toList, "01aa".toList, "abcd".toList, "ffff".toList] 2 = .ok gs ∧
      List.Pairwise (fun g g2 => g.pfx < g2.pfx) gs) ∧
    generateArchiveGroups ["0000".toList] 7
      = .error "prefix digits must be between 1 and 4" := by
  constructor
  · obtain ⟨gs, hok, _, _, hpair⟩ :=
      (c4_grouping ["0000".toList, "0001".toList, "00ff".toList, "0100".toList,
        "01aa".toList, "abcd".toList, "ffff".toList] 2).1 (by decide) (by decide)
    exact ⟨gs, hok, hpair⟩
  · exact (c4_grouping ["0000".toList] 7).2 (by decide)

/-- C9: for every run that returns a BackupResult, full or incremental,
the counts satisfy total = updated + skipped + number of errored groups:
each generated group contributes to exactly one outcome category. -/
theorem c9_outcome_partition (cfg : Config) (env : Env) (out : RunOutput) :
    (runFullBackup cfg env = .ok out →
      out.result.totalArchives = out.result.updatedArchives
        + out.result.skippedArchives + out.result.errorArchives.length) ∧
    (runIncrementalBackup cfg env = .ok out →
      out.result.totalArchives = out.result.updatedArchives
        + out.result.skippedArchives + out.result.errorArchives.length) := by
  constructor
  · intro h
    obtain ⟨ft, dirs, groups, hscan, hdirs, hgen, hres, hmd⟩ :=
      runFullBackup_ok_elim cfg env out h
    have hfold := (foldl_step_facts (fullStep cfg env) (fullStep_facts cfg env)
      groups ⟨[], emptyResult, []⟩).2.1
    rw [hres]
    simp only [emptyResult] at hfold ⊢
    simp at hfold ⊢
    omega
  · intro h
    obtain ⟨oldMd, t, dirs, groups0, hload, hscan, hdirs, hgen, hres, hmd⟩ :=
      runIncrementalBackup_ok_elim cfg env out h
    have hfold := (foldl_step_facts (incrStep cfg env) (incrStep_facts cfg env)
      (markGroupsForUpdate groups0 (compareFileTrees oldMd.fileTree t))
      ⟨oldMd.checksums, emptyResult, []⟩).2.1
    rw [hres]
    simp only [emptyResult] at hfold ⊢
    simp at hfold ⊢
    omega

/-- Witness for C9 on concrete full and incremental runs. -/
theorem c9_outcome_partition_witness :
    (∃ out, runFullBackup cfg0 envBase = .ok out ∧
      out.result.totalArchives = out.result.updatedArchives
        + out.result.skippedArchives + out.result.errorArchives.length) ∧
    (∃ out, runIncrementalBackup cfg0 envNoChange = .ok out ∧
      out.result.totalArchives = out.result.updatedArchives
        + out.result.skippedArchives + out.result.errorArchives.length) := by
  constructor
  · exact ⟨_, rfl, (c9_outcome_partition cfg0 envBase _).1 rfl⟩
  · exact ⟨_, rfl, (c9_outcome_partition cfg0 envNoChange _).2 rfl⟩

/-- C1 counterexample for the full-run half of the claim: a full run
rebuilds the checksum map from scratch, so a group that fails keeps no
entry in the persisted metadata even though the prior metadata (still
loadable from remote storage) recorded one for it — the entry is not
"exactly what it was before the run". -/
theorem c1_counterexample :
    ∃ out, runFullBackup cfg0 envIncrFail = .ok out ∧
      grp0.archiveName ∈ out.result.errorArchives ∧
      loadRemoteMetadata cfg0 envIncrFail = .ok { md0 with fileTree := [] } ∧
      lookupKey { md0 with fileTree := [] }.checksums grp0.archiveName
        = some "h0".toList ∧
      lookupKey out.metadata.checksums grp0.archiveName = none := by
  exact ⟨_, rfl, by decide, rfl, by decide, by decide⟩

/-- C1: in an incremental run, every group recorded in the error list
keeps exactly its pre-run checksum entry (absent if it had none) in the
persisted metadata, its error is recorded in the details map, the final
metadata persistence still happened with the current snapshot, and all
other groups were still accounted (each group lands in exactly one
outcome). -/
theorem c1_failure_containment (cfg : Config) (env : Env) (oldMd : BackupMetadata)
    (out : RunOutput) (hload : loadRemoteMetadata cfg env = .ok oldMd)
    (hrun : runIncrementalBackup cfg env = .ok out) :
    (∀ name ∈ out.result.errorArchives,
      lookupKey out.metadata.checksums name = lookupKey oldMd.checksums name ∧
      (lookupKey out.result.details name).isSome) ∧
    (∀ t, env.scanTree = .ok t → out.metadata.fileTree = t) ∧
    out.result.totalArchives = out.result.updatedArchives
      + out.result.skippedArchives + out.result.errorArchives.length := by
  obtain ⟨oldMd2, t0, dirs, groups0, hload2, hscan, hdirs, hgen, hres, hmd⟩ :=
    runIncrementalBackup_ok_elim cfg env out hrun
  rw [hload] at hload2
  injection hload2 with he
  subst he
  have hnodup : ((markGroupsForUpdate groups0
      (compareFileTrees oldMd.fileTree t0)).map (fun g => g.archiveName)).Nodup := by
    rw [markGroupsForUpdate_map_archiveName]
    exact generateArchiveGroups_names_nodup dirs oldMd.prefixDigits groups0 hgen
  have hfold := foldl_step_facts (incrStep cfg env) (incrStep_facts cfg env)
    (markGroupsForUpdate groups0 (compareFileTrees oldMd.fileTree t0))
    ⟨oldMd.checksums, emptyResult, []⟩
  refine ⟨?_, ?_, ?_⟩
  · intro name hname
    rw [hres] at hname
    simp only at hname
    obtain ⟨hcs, hdet⟩ := hfold.2.2.2.2 hnodup name hname (by simp [emptyResult])
    rw [hmd, hres]
    simp only at hcs hdet ⊢
    exact ⟨hcs, hdet⟩
  · intro t ht
    rw [hscan] at ht
    injection ht with he2
    rw [hmd]
    exact he2
  · have hsum := hfold.2.1
    rw [hres]
    simp only [emptyResult] at hsum ⊢
    simp at hsum ⊢
    omega

/-- Witness for C1: an incremental run where the only group's archive
build fails; the run still succeeds, records the error and keeps the prior
checksum. -/
theorem c1_failure_containment_witness :
    ∃ out, runIncrementalBackup cfg0 envIncrFail = .ok out ∧
      ∀ name ∈ out.result.errorArchives,
        lookupKey out.metadata.checksums name
          = lookupKey { md0 with fileTree := [] }.checksums name ∧
        (lookupKey out.result.details name).isSome := by
  refine ⟨_, rfl, ?_⟩
  exact (c1_failure_containment cfg0 envIncrFail { md0 with fileTree := [] } _ rfl rfl).1

/-- C6: an incremental run whose scan returns exactly the tree recorded in
the prior metadata (no filesystem changes since the previous run) updates
nothing: every group is skipped. -/
theorem c6_idempotent_second_run (cfg : Config) (env : Env) (oldMd : BackupMetadata)
    (t : Snapshot) (out : RunOutput)
    (hload : loadRemoteMetadata cfg env = .ok oldMd) (hscan : env.scanTree = .ok t)
    (hsame : oldMd.fileTree = t) (hwf : snapWf t)
    (hrun : runIncrementalBackup cfg env = .ok out) :
    out.result.updatedArchives = 0 ∧
    out.result.skippedArchives = out.result.totalArchives := by
  obtain ⟨oldMd2, t0, dirs, groups0, hload2, hscan2, hdirs, hgen, hres, hmd⟩ :=
    runIncrementalBackup_ok_elim cfg env out hrun
  rw [hload] at hload2
  injection hload2 with he
  subst he
  rw [hscan] at hscan2
  injection hscan2 with he2
  subst he2
  have hchanged : compareFileTrees oldMd.fileTree t = [] := by
    rw [hsame]
    exact compareFileTrees_self_eq_nil hwf
  rw [hchanged, markGroupsForUpdate_nil] at hres
  have hall : ∀ g ∈ groups0, g.needsUpdate = false :=
    fun g hg => ((generateArchiveGroups_ok_facts dirs oldMd.prefixDigits groups0 hgen).2.2.1
      g hg).1
  obtain ⟨hupd, hskip⟩ := foldl_incr_all_skip cfg env groups0
    ⟨oldMd.checksums, emptyResult, []⟩ hall
  rw [hres]
  simp only [emptyResult] at hupd hskip ⊢
  simp at hupd hskip ⊢
  omega

/-- Witness for C6: the no-change environment yields one skipped group and
zero updates. -/
theorem c6_idempotent_second_run_witness :
    ∃ out, runIncrementalBackup cfg0 envNoChange = .ok out ∧
      out.result.updatedArchives = 0 ∧
      out.result.skippedArchives = out.result.totalArchives := by
  refine ⟨_, rfl, ?_⟩
  exact c6_idempotent_second_run cfg0 envNoChange md0 snap0 _ rfl rfl rfl
    ⟨by decide, by decide⟩ rfl

/-- C2: the checksum gate of processArchiveGroup. After a successful
build and hash of a dirty group: if the remote companion checksum record
parses to exactly the computed hash, the upload is skipped, the group is
counted skipped, nothing is uploaded, and the hash is still recorded; if
the remote record is absent/unreadable or holds a different hash, and the
uploads succeed, the archive and its companion checksum record are
uploaded and the new hash is recorded. -/
theorem c2_checksum_gate (cfg : Config) (env : Env) (g : ArchiveGroup) (st : PState)
    (checksum : GoStr) (hbuild : env.build g = .ok)
    (hsha : env.checksumOf g = .ok checksum) :
    (getRemoteChecksum env (pathJoin cfg.remotePath (g.archiveName ++ ".sha256".toList))
        = .ok checksum →
      ∃ st1, processArchiveGroup cfg env g st = (none, st1) ∧
        st1.result.skippedArchives = st.result.skippedArchives + 1 ∧
        st1.result.updatedArchives = st.result.updatedArchives ∧
        st1.result.uploadedFiles = st.result.uploadedFiles ∧
        lookupKey st1.checksums g.archiveName = some checksum ∧
        lookupKey st1.result.details g.archiveName
          = some "checksum unchanged, skipped") ∧
    ((∀ c, getRemoteChecksum env
          (pathJoin cfg.remotePath (g.archiveName ++ ".sha256".toList)) = .ok c →
        c ≠ checksum) →
      env.upload (pathJoin cfg.tempPath g.archiveName)
        (pathJoin cfg.remotePath g.archiveName) = .ok () →
      env.csFile g = .ok →
      env.upload (pathJoin cfg.tempPath g.archiveName ++ ".sha256".toList)
        (pathJoin cfg.remotePath (g.archiveName ++ ".sha256".toList)) = .ok () →
      ∃ st1, processArchiveGroup cfg env g st = (none, st1) ∧
        st1.result.updatedArchives = st.result.updatedArchives + 1 ∧
        st1.result.skippedArchives = st.result.skippedArchives ∧
        st1.result.uploadedFiles = st.result.uploadedFiles
          ++ [g.archiveName, g.archiveName ++ ".sha256".toList] ∧
        lookupKey st1.checksums g.archiveName = some checksum ∧
        lookupKey st1.result.details g.archiveName = some "created and uploaded") := by
  constructor
  · intro hrc
    have hred : processArchiveGroup cfg env g st
        = (none,
           { checksums := setKey st.checksums g.archiveName checksum,
             result := { st.result with
               skippedArchives := st.result.skippedArchives + 1,
               details := setKey (setKey st.result.details g.archiveName
                 "checksum unchanged, skipped upload") g.archiveName
                 "checksum unchanged, skipped" },
             tmp := removeFile (addFile st.tmp (pathJoin cfg.tempPath g.archiveName))
               (pathJoin cfg.tempPath g.archiveName) }) := by
      simp only [processArchiveGroup, createArchive, hbuild, hsha, hrc]
      simp
    exact ⟨_, hred, rfl, rfl, rfl, lookupKey_setKey_self _ _ _,
      lookupKey_setKey_self _ _ _⟩
  · intro hgate hup1 hcs hup2
    have hred : processArchiveGroup cfg env g st
        = (none,
           { checksums := setKey st.checksums g.archiveName checksum,
             result := { st.result with
               uploadedFiles := (st.result.uploadedFiles ++ [g.archiveName])
                 ++ [g.archiveName ++ ".sha256".toList],
               updatedArchives := st.result.updatedArchives + 1,
               details := setKey st.result.details g.archiveName
                 "created and uploaded" },
             tmp := removeFile
               (removeFile
                 (addFile (addFile st.tmp (pathJoin cfg.tempPath g.archiveName))
                   (pathJoin cfg.tempPath g.archiveName ++ ".sha256".toList))
                 (pathJoin cfg.tempPath g.archiveName ++ ".sha256".toList))
               (pathJoin cfg.tempPath g.archiveName) }) := by
      rcases hrc : getRemoteChecksum env
          (pathJoin cfg.remotePath (g.archiveName ++ ".sha256".toList)) with e0 | rc
      · simp only [processArchiveGroup, createArchive, createChecksumFile,
          hbuild, hsha, hrc, hcs, hup1, hup2]
        simp
      · have hne := hgate rc hrc
        simp only [processArchiveGroup, createArchive, createChecksumFile,
          hbuild, hsha, hrc, hcs, hup1, hup2]
        simp [hne]
    refine ⟨_, hred, rfl, rfl, by simp, lookupKey_setKey_self _ _ _,
      lookupKey_setKey_self _ _ _⟩

/-- Witness for C2: the gate at work against a concrete group, with the
remote checksum equal (skip branch) and absent (upload branch). -/
theorem c2_checksum_gate_witness :
    (∃ st1, processArchiveGroup cfg0 envSame grp0 pst0 = (none, st1) ∧
      st1.result.skippedArchives = pst0.result.skippedArchives + 1 ∧
      st1.result.updatedArchives = pst0.result.updatedArchives ∧
      st1.result.uploadedFiles = pst0.result.uploadedFiles ∧
      lookupKey st1.checksums grp0.archiveName = some "h1".toList ∧
      lookupKey st1.result.details grp0.archiveName
        = some "checksum unchanged, skipped") ∧
    (∃ st1, processArchiveGroup cfg0 envBase grp0 pst0 = (none, st1) ∧
      st1.result.updatedArchives = pst0.result.updatedArchives + 1 ∧
      st1.result.skippedArchives = pst0.result.skippedArchives ∧
      st1.result.uploadedFiles = pst0.result.uploadedFiles
        ++ [grp0.archiveName, grp0.archiveName ++ ".sha256".toList] ∧
      lookupKey st1.checksums grp0.archiveName = some "h1".toList ∧
      lookupKey st1.result.details grp0.archiveName = some "created and uploaded") :=
  ⟨(c2_checksum_gate cfg0 envSame grp0 pst0 ("h1".toList) rfl rfl).1 rfl,
   (c2_checksum_gate cfg0 envBase grp0 pst0 ("h1".toList) rfl rfl).2
     (fun _ hc => Except.noConfusion hc) rfl rfl rfl⟩

/-- C7 counterexample: the Prefix Grouper does not ignore non-hexadecimal
names — "zzzz" is not a 4-hex-digit name, yet GenerateArchiveGroups
assigns it to a group (only the length-4 check exists in the grouper). -/
theorem c7_counterexample :
    isHex4 "zzzz".toList = false ∧
    ∃ gs, generateArchiveGroups ["zzzz".toList] 1 = .ok gs ∧
      ∃ g ∈ gs, "zzzz".toList ∈ g.directories := by
  refine ⟨by decide, _, rfl, ?_⟩
  exact ⟨{ pfx := "z".toList, startRange := "z000".toList,
           endRange := "zfff".toList, archiveName := "z000-zfff.tar.gz".toList,
           directories := ["zzzz".toList], needsUpdate := false },
         by decide, by decide⟩

/-- C7 (amended): the Snapshot Builder ignores every root entry that is
not a directory with a 4-hex-digit name (every snapshot entry and every
chunk-directory name is 4-hex); the Prefix Grouper, however, filters only
on length: every grouped member comes from the input and has length 4,
but is not necessarily hexadecimal. -/
theorem c7_ignore_rules (root : List (GoStr × FsNode)) (dirs : List GoStr)
    (pd : Int) (gs : List ArchiveGroup)
    (hgen : generateArchiveGroups dirs pd = .ok gs) :
    (∀ p ∈ scanFileTree root, isHex4 p.1 = true) ∧
    (∀ name ∈ getChunkDirectories root, isHex4 name = true) ∧
    (∀ g ∈ gs, ∀ d ∈ g.directories, d ∈ dirs ∧ d.length = 4) := by
  refine ⟨?_, ?_, ?_⟩
  · intro p hp
    simp only [scanFileTree, List.mem_map, List.mem_filter] at hp
    obtain ⟨e, ⟨he, hpred⟩, hpe⟩ := hp
    simp only [Bool.and_eq_true] at hpred
    rw [← hpe]
    exact hpred.2
  · intro name hname
    rw [getChunkDirectories, List.mem_insertionSort] at hname
    simp only [List.mem_map, List.mem_filter] at hname
    obtain ⟨e, ⟨he, hpred⟩, hpe⟩ := hname
    simp only [Bool.and_eq_true] at hpred
    rw [← hpe]
    exact hpred.2
  · intro g hg d hd
    obtain ⟨-, -, -, -, -, -, -, hm⟩ :=
      (generateArchiveGroups_ok_facts dirs pd gs hgen).2.2.1 g hg
    exact ⟨(hm d hd).1, (hm d hd).2.1⟩

/-- Witness for C7 on a concrete root (one hex directory, one non-hex
directory, one file) and the grouper run on a non-hex length-4 name. -/
theorem c7_ignore_rules_witness :
    ∃ gs, generateArchiveGroups ["zzzz".toList] 1 = .ok gs ∧
      ((∀ p ∈ scanFileTree fsRoot0, isHex4 p.1 = true) ∧
       (∀ name ∈ getChunkDirectories fsRoot0, isHex4 name = true) ∧
       (∀ g ∈ gs, ∀ d ∈ g.directories, d ∈ ["zzzz".toList] ∧ d.length = 4)) :=
  ⟨_, rfl, c7_ignore_rules fsRoot0 ["zzzz".toList] 1 _ rfl⟩

/-- C10: if a dirty group's archive upload succeeds but creating or
uploading the companion checksum record fails, the group lands in the
error list with its checksum entry unchanged — yet its archive name is
already in uploadedFiles: the remote artifact was replaced although the
group is reported failed. -/
theorem c10_partial_upload (cfg : Config) (env : Env) (g : ArchiveGroup) (st : PState)
    (checksum : GoStr)
    (hbuild : env.build g = .ok) (hsha : env.checksumOf g = .ok checksum)
    (hgate : ∀ c, getRemoteChecksum env
        (pathJoin cfg.remotePath (g.archiveName ++ ".sha256".toList)) = .ok c →
      c ≠ checksum)
    (hup1 : env.upload (pathJoin cfg.tempPath g.archiveName)
        (pathJoin cfg.remotePath g.archiveName) = .ok ())
    (hfail :
      (∃ e, env.csFile g = .createFail e) ∨
      (∃ e, env.csFile g = .writeFail e) ∨
      (env.csFile g = .ok ∧
        ∃ e, env.upload (pathJoin cfg.tempPath g.archiveName ++ ".sha256".toList)
          (pathJoin cfg.remotePath (g.archiveName ++ ".sha256".toList))
          = .error e)) :
    (fullStep cfg env st g).result.errorArchives
        = st.result.errorArchives ++ [g.archiveName] ∧
    (fullStep cfg env st g).checksums = st.checksums ∧
    (fullStep cfg env st g).result.uploadedFiles
        = st.result.uploadedFiles ++ [g.archiveName] ∧
    (fullStep cfg env st g).result.updatedArchives = st.result.updatedArchives := by
  rcases hrc : getRemoteChecksum env
      (pathJoin cfg.remotePath (g.archiveName ++ ".sha256".toList)) with e0 | rc
  · rcases hfail with ⟨e, hcs⟩ | ⟨e, hcs⟩ | ⟨hcs, e, hup2⟩
    · simp only [fullStep, processArchiveGroup, createArchive, createChecksumFile,
        hbuild, hsha, hrc, hcs, hup1]
      simp
    · simp only [fullStep, processArchiveGroup, createArchive, createChecksumFile,
        hbuild, hsha, hrc, hcs, hup1]
      simp
    · simp only [fullStep, processArchiveGroup, createArchive, createChecksumFile,
        hbuild, hsha, hrc, hcs, hup1, hup2]
      simp
  · have hne := hgate rc hrc
    rcases hfail with ⟨e, hcs⟩ | ⟨e, hcs⟩ | ⟨hcs, e, hup2⟩
    · simp only [fullStep, processArchiveGroup, createArchive, createChecksumFile,
        hbuild, hsha, hrc, hcs, hup1]
      simp [hne]
    · simp only [fullStep, processArchiveGroup, createArchive, createChecksumFile,
        hbuild, hsha, hrc, hcs, hup1]
      simp [hne]
    · simp only [fullStep, processArchiveGroup, createArchive, createChecksumFile,
        hbuild, hsha, hrc, hcs, hup1, hup2]
      simp [hne]

/-- Witness for C10: with the environment whose checksum-file upload
fails, the group is errored, its checksum entry untouched, and the
archive already uploaded. -/
theorem c10_partial_upload_witness :
    (fullStep cfg0 envShaFail pst0 grp0).result.errorArchives
        = pst0.result.errorArchives ++ [grp0.archiveName] ∧
    (fullStep cfg0 envShaFail pst0 grp0).checksums = pst0.checksums ∧
    (fullStep cfg0 envShaFail pst0 grp0).result.uploadedFiles
        = pst0.result.uploadedFiles ++ [grp0.archiveName] ∧
    (fullStep cfg0 envShaFail pst0 grp0).result.updatedArchives
        = pst0.result.updatedArchives :=
  c10_partial_upload cfg0 envShaFail grp0 pst0 ("h1".toList) rfl rfl
    (fun _ hc => Except.noConfusion hc) rfl
    (Or.inr (Or.inr ⟨rfl, "network error", rfl⟩))

end PbsBackuper
